import Mathlib

/-!
# MetricsVK: a shallow embedding of `src/MetricsVK.cpp`

The program keeps a registry (`Manager`) of named numeric metrics
(`ConcreteMetric<T>` behind a `Metric*`), instantiated in the program at
`T = int` and `T = double`, and appends one text line per `logMetrics()` call
to a file opened in append mode.

Modelling decisions:

* `int` is a 32-bit two's-complement integer (`CInt`); `std::atomic<int>::operator+=`
  wraps around.
* `double` is an IEEE-754 binary64 value (`Double`), kept as an exact multiple of
  the least subnormal `2^(-1074)`; addition rounds to nearest, ties to even, and
  `std::fixed << std::setprecision(2)` rounds the exact value to the nearest
  hundredth, ties to even.
* `std::unordered_map<std::string, std::unique_ptr<Metric>>` is a list of nodes
  with pairwise distinct keys, read in iteration order (`MetricsMap`).  Where the
  C++ standard leaves the position of a freshly inserted node open, the node is
  put in front; the general theorems below do not depend on that choice, it
  only fixes the order of the entries in the evaluated examples.
* The sink `_file` is the text it holds; writes always succeed.
* The reading of the system clock (in nanoseconds since the epoch), the
  conversion of `std::localtime` and the outcome of opening the file are inputs.
* The member functions are modelled as single sequential calls. Two sections
  look at threads: increments of one atomic value in the order in which they
  take effect, and the statements of two `logMetrics()` calls under a schedule.
-/

set_option exponentiation.threshold 4000
set_option maxRecDepth 100000

namespace MetricsVK

/-! ## `int` -/

/-- The C++ type `int`: a 32-bit two's-complement integer. -/
def CInt : Type := { v : Int // -2147483648 ≤ v ∧ v ≤ 2147483647 }

instance : DecidableEq CInt := inferInstanceAs (DecidableEq { v : Int // -2147483648 ≤ v ∧ v ≤ 2147483647 })

/-- Reduction of a mathematical integer into the range of `int` modulo `2^32`. -/
def wrap32 (v : Int) : Int := (v + 2147483648) % 4294967296 - 2147483648

/-- The `int` congruent to `v` modulo `2^32`. -/
def CInt.ofInt (v : Int) : CInt := ⟨wrap32 v, by unfold wrap32; omega⟩

/-- The literal `0` as an `int`. -/
def CInt.zero : CInt := ⟨0, by decide⟩

/-- The `std::atomic<int>::operator+=` result (`fetch_add`): two's-complement wrap-around. -/
def CInt.add (x d : CInt) : CInt := CInt.ofInt (x.val + d.val)

/-- Decimal text of an integer as `operator<<` writes it: a minus sign for a
negative number, then the digits without padding. -/
def intText (v : Int) : String :=
  if v < 0 then "-" ++ Nat.repr v.natAbs else Nat.repr v.natAbs

/-! ## `double` -/

/-- An IEEE-754 binary64 value.  `finite neg mag` is the number
`(-1)^neg * mag * 2^(-1074)`; every finite double has this form. -/
inductive Double where
  | finite (neg : Bool) (mag : Nat)
  | inf (neg : Bool)
  | nan
  deriving DecidableEq, Repr

/-- Rounding of the non-negative rational `num / den` to the nearest integer,
ties to the even one. -/
def roundHalfEven (num den : Nat) : Nat :=
  let q := num / den
  let r := num % den
  if 2 * r < den then q
  else if 2 * r = den then (if q % 2 = 0 then q else q + 1)
  else q + 1

/-- The least power of two `u'` at or above `u` (a power of two) with
`fl < 2^53 * u'`, found by doubling at most `fuel` times. -/
def ulpSearch (fl : Nat) : Nat → Nat → Nat
  | 0, u => u
  | fuel + 1, u => if fl < 9007199254740992 * u then u else ulpSearch fl fuel (2 * u)

/-- Rounding of a magnitude `num / den` (in units of `2^(-1074)`) to 53
significant bits, to nearest, ties to even, with unbounded exponent: the
result is a multiple of the spacing `ulp` of the doubles around `num / den`. -/
def Double.roundMag (num den : Nat) : Nat :=
  let fl := num / den
  let ulp := ulpSearch fl fl 1
  roundHalfEven num (den * ulp) * ulp

/-- The double nearest to `(-1)^neg * num / den * 2^(-1074)`; a magnitude that
rounds to `2^1024` or more overflows to infinity. -/
def Double.round (neg : Bool) (num den : Nat) : Double :=
  let m := Double.roundMag num den
  if m < 2 ^ 2098 then Double.finite neg m else Double.inf neg

/-- The double that a decimal literal of exact value `num / den` denotes: the
nearest double (`0.965` is `Double.ofRatio 965 1000`). -/
def Double.ofRatio (num den : Nat) : Double := Double.round false (num * 2 ^ 1074) den

/-- The spacing `u` of the doubles around the magnitude `n` (both in units of
`2^(-1074)`): a power of two with `n < 2^53 * u`, the least one, and never less
than the spacing `1` of the subnormal numbers. -/
def IsSpacing (n u : Nat) : Prop :=
  (∃ k, u = 2 ^ k) ∧ n < 9007199254740992 * u ∧ (u = 1 ∨ 4503599627370496 * u ≤ n)

/-- The multiple `r` of `u` nearest to `n`; when `n` lies half-way between two
multiples, the even multiple. -/
def IsNearestEven (n u r : Nat) : Prop :=
  ∃ q, r = q * u ∧ 2 * r ≤ 2 * n + u ∧ 2 * n ≤ 2 * r + u
    ∧ ((2 * r = 2 * n + u ∨ 2 * n = 2 * r + u) → q % 2 = 0)

/-- The exact sum of the finite doubles `(-1)^na * a` and `(-1)^nb * b`, in
units of `2^(-1074)`. -/
def exactSum (na : Bool) (a : Nat) (nb : Bool) (b : Nat) : Int :=
  (if na then -(a : Int) else (a : Int)) + (if nb then -(b : Int) else (b : Int))

/-- The relation "`y` is the IEEE-754 sum of `x` and `d`" in the default
rounding mode, stated by its properties. A NaN operand gives NaN; infinities
of one sign give that infinity and of opposite signs NaN; an infinity and a
finite number give the infinity. For two finite numbers with exact sum zero
the result is zero, negative only when both operands are negative zeros;
otherwise it is the exact sum rounded to the nearest multiple of the spacing of
the doubles around it, ties to even, with the sign of the exact sum, and it is
infinity when the rounded magnitude reaches `2^1024`. -/
def Double.IsSumOf : Double → Double → Double → Prop
  | Double.nan, _, y => y = Double.nan
  | Double.inf _, Double.nan, y => y = Double.nan
  | Double.finite _ _, Double.nan, y => y = Double.nan
  | Double.inf sa, Double.inf sb, y =>
    (sa = sb → y = Double.inf sa) ∧ (sa ≠ sb → y = Double.nan)
  | Double.inf sa, Double.finite _ _, y => y = Double.inf sa
  | Double.finite _ _, Double.inf sb, y => y = Double.inf sb
  | Double.finite na a, Double.finite nb b, y =>
    (exactSum na a nb b = 0 → y = Double.finite (na && nb) 0)
    ∧ (exactSum na a nb b ≠ 0 →
        ∃ u r, IsSpacing (exactSum na a nb b).natAbs u
          ∧ IsNearestEven (exactSum na a nb b).natAbs u r
          ∧ (r < 2 ^ 2098 → y = Double.finite (decide (exactSum na a nb b < 0)) r)
          ∧ (2 ^ 2098 ≤ r → y = Double.inf (decide (exactSum na a nb b < 0))))

/-- The literal `0` converted to `double`: positive zero. -/
def Double.zero : Double := Double.finite false 0

/-- The exact value of a finite double, in units of `2^(-1074)`. -/
def Double.signed (neg : Bool) (mag : Nat) : Int :=
  if neg then -(mag : Int) else (mag : Int)

/-- IEEE-754 addition in the default rounding mode, as `std::atomic<double>::operator+=`
computes the new value. -/
def Double.add : Double → Double → Double
  | Double.nan, _ => Double.nan
  | _, Double.nan => Double.nan
  | Double.inf a, Double.inf b => if a = b then Double.inf a else Double.nan
  | Double.inf a, Double.finite _ _ => Double.inf a
  | Double.finite _ _, Double.inf b => Double.inf b
  | Double.finite na a, Double.finite nb b =>
    let s := Double.signed na a + Double.signed nb b
    if s = 0 then Double.finite (na && nb) 0
    else Double.round (decide (s < 0)) s.natAbs 1

/-- One decimal digit as a character. -/
def digitText (d : Nat) : String := Nat.repr (d % 10)

/-- Text of a double under `std::fixed << std::setprecision(2)`: the exact value
rounded to the nearest hundredth (ties to even), written with two digits after
the point. -/
def Double.toFixed2 : Double → String
  | Double.nan => "nan"
  | Double.inf neg => (if neg then "-" else "") ++ "inf"
  | Double.finite neg mag =>
    let h := roundHalfEven (mag * 100) (2 ^ 1074)
    (if neg then "-" else "") ++ Nat.repr (h / 100) ++ "." ++ digitText (h / 10) ++ digitText h

/-! ## Metrics -/

/-- The template argument `T` of `ConcreteMetric<T>`, `createMetric<T>`,
`addValue<T>` and `setValue<T>`: `int` or `double`. -/
inductive Kind where
  | Integer
  | Float
  deriving DecidableEq, Repr

/-- A value of type `T`, tagged with `T`. -/
inductive Value where
  | int (v : CInt)
  | double (v : Double)
  deriving DecidableEq

/-- The type `T` a value belongs to. -/
def Value.kind : Value → Kind
  | Value.int _ => Kind.Integer
  | Value.double _ => Kind.Float

/-- The value `T(0)`. -/
def Value.zero : Kind → Value
  | Kind.Integer => Value.int CInt.zero
  | Kind.Float => Value.double Double.zero

/-- An object of class `ConcreteMetric<T>`, seen through `Metric*`; `T` is the
kind of `_value`. -/
structure Metric where
  _name : String
  _value : Value
  deriving DecidableEq

/-- The dynamic type of a metric: the `T` of its `ConcreteMetric<T>`. -/
def Metric.kind (m : Metric) : Kind := m._value.kind

/-- The constructor `ConcreteMetric<T>(metricName)`. -/
def ConcreteMetric.new (T : Kind) (metricName : String) : Metric :=
  { _name := metricName, _value := Value.zero T }

/-- The call `dynamic_cast<ConcreteMetric<T>*>(p)` followed, when the cast
succeeds, by `metric->add(new_value)` with `new_value : T`; `none` stands for
the null pointer of a failed cast. -/
def ConcreteMetric.add (m : Metric) (new_value : Value) : Option Metric :=
  match m._value, new_value with
  | Value.int x, Value.int d => some { m with _value := Value.int (CInt.add x d) }
  | Value.double x, Value.double d => some { m with _value := Value.double (Double.add x d) }
  | _, _ => none

/-- The call `dynamic_cast<ConcreteMetric<T>*>(p)` followed, when the cast
succeeds, by `metric->set(new_value)` with `new_value : T`. -/
def ConcreteMetric.set (m : Metric) (new_value : Value) : Option Metric :=
  if m.kind = new_value.kind then some { m with _value := new_value } else none

/-- The member `getName()`. -/
def ConcreteMetric.getName (m : Metric) : String := m._name

/-- The member `getValueAsString()`. -/
def ConcreteMetric.getValueAsString (m : Metric) : String :=
  match m._value with
  | Value.double v => Double.toFixed2 v
  | Value.int v => intText v.val

/-- The member `reset()`: `_value = 0`. -/
def ConcreteMetric.reset (m : Metric) : Metric :=
  { m with _value := Value.zero m.kind }

/-! ## The map `_metrics` -/

/-- The state of `std::unordered_map<std::string, std::unique_ptr<Metric>>`: its
nodes in iteration order; no two nodes have the same key. -/
structure MetricsMap where
  nodes : List (String × Metric)
  unique : (nodes.map Prod.fst).Nodup

instance : DecidableEq MetricsMap := fun a b =>
  match a, b with
  | ⟨x, _⟩, ⟨y, _⟩ =>
    if h : x = y then isTrue (by subst h; rfl)
    else isFalse (fun e => h (congrArg MetricsMap.nodes e))

/-- The empty map. -/
def MetricsMap.empty : MetricsMap := { nodes := [], unique := List.nodup_nil }

/-- Search of a node list for a key. -/
def findNode (name : String) : List (String × Metric) → Option Metric
  | [] => none
  | (k, m) :: rest => if k = name then some m else findNode name rest

/-- The member `find(name)`, with `none` for `end()` and otherwise the object
the node's pointer refers to. -/
def MetricsMap.find (mp : MetricsMap) (name : String) : Option Metric :=
  findNode name mp.nodes

/-- The keys of the map in iteration order. -/
def MetricsMap.names (mp : MetricsMap) : List String := mp.nodes.map Prod.fst

/-- The object held by the node with key `name` is changed to `f` of it; the
node keeps its place. -/
def MetricsMap.modify (mp : MetricsMap) (name : String) (f : Metric → Metric) : MetricsMap :=
  { nodes := mp.nodes.map (fun p => if p.1 = name then (p.1, f p.2) else p)
    unique := by
      have h : (mp.nodes.map (fun p => if p.1 = name then (p.1, f p.2) else p)).map Prod.fst
          = mp.nodes.map Prod.fst := by
        rw [List.map_map]
        apply List.map_congr_left
        intro p _
        simp only [Function.comp]
        split <;> rfl
      rw [h]
      exact mp.unique }

/-- The statement `m[name] = metric`: an existing node with that key gets the
new object and keeps its place, otherwise a new node is inserted. -/
def MetricsMap.assign (mp : MetricsMap) (name : String) (metric : Metric) : MetricsMap :=
  if h : name ∈ mp.nodes.map Prod.fst then mp.modify name (fun _ => metric)
  else
    { nodes := (name, metric) :: mp.nodes
      unique := by
        simp only [List.map_cons]
        exact List.nodup_cons.mpr ⟨h, mp.unique⟩ }

/-- The member `erase(name)`: the node with that key, if any, is removed; the
other nodes keep their relative order. -/
def MetricsMap.erase (mp : MetricsMap) (name : String) : MetricsMap :=
  { nodes := mp.nodes.filter (fun p => decide (p.1 ≠ name))
    unique := List.Nodup.sublist (List.Sublist.map Prod.fst (List.filter_sublist mp.nodes)) mp.unique }

/-! ## The timestamp -/

/-- The fields of `struct tm` that the format reads. -/
structure Tm where
  tm_year : Int
  tm_mon : Nat
  tm_mday : Nat
  tm_hour : Nat
  tm_min : Nat
  tm_sec : Nat

/-- A number written with at least two digits, zero-padded (`%m`, `%d`, `%H`, `%M`, `%S`). -/
def pad2 (n : Nat) : String :=
  if n < 10 then "0" ++ Nat.repr n else Nat.repr n

/-- The text of `std::put_time(tm, "%Y-%m-%d %H:%M:%S.")`. -/
def putTime (tm : Tm) : String :=
  intText (tm.tm_year + 1900) ++ "-" ++ pad2 (tm.tm_mon + 1) ++ "-" ++ pad2 tm.tm_mday ++ " "
    ++ pad2 tm.tm_hour ++ ":" ++ pad2 tm.tm_min ++ ":" ++ pad2 tm.tm_sec ++ "."

/-- The text of `std::setfill('0') << std::setw(3) << v`: the decimal text of
`v`, filled on the left with `0` up to three characters. -/
def setw3 (v : Int) : String :=
  String.mk (List.replicate (3 - (intText v).length) (Char.ofNat 48)) ++ intText v

/-- The value of `std::chrono::system_clock::to_time_t(now)`, with `now` in
nanoseconds since the epoch: whole seconds, truncated toward zero. -/
def to_time_t (now : Int) : Int := Int.tdiv now 1000000000

/-- The value of `duration_cast<milliseconds>(now.time_since_epoch()) % 1000`
(both operations truncate toward zero). -/
def msCount (now : Int) : Int := Int.tmod (Int.tdiv now 1000000) 1000

/-- The content of the stream `timestamp` in `logMetrics`. -/
def timestamp (localtime : Int → Tm) (now : Int) : String :=
  putTime (localtime (to_time_t now)) ++ setw3 (msCount now) ++ " "

/-! ## `Manager` -/

/-- The state of a `Manager`: the map `_metrics` and the text held by the file
behind `_file`. -/
structure Manager where
  _metrics : MetricsMap
  _file : String
  deriving DecidableEq

/-- The constructor `Manager(name)`. `fopen name` is the outcome of opening the
file in append mode: `none` when it cannot be opened, otherwise the text the
file already holds. The thrown `std::runtime_error` is the error result. -/
def Manager.new (fopen : String → Option String) (name : String) : Except String Manager :=
  match fopen name with
  | none => Except.error "Cannot open file!"
  | some content => Except.ok { _metrics := MetricsMap.empty, _file := content }

/-- The member `createMetric<T>(name)`. -/
def Manager.createMetric (mgr : Manager) (T : Kind) (name : String) : Manager :=
  { mgr with _metrics := mgr._metrics.assign name (ConcreteMetric.new T name) }

/-- The member `deleteMetric(name)`. -/
def Manager.deleteMetric (mgr : Manager) (name : String) : Manager :=
  { mgr with _metrics := mgr._metrics.erase name }

/-- The member `addValue<T>(name, value)`, where `T` is the type of `value`. -/
def Manager.addValue (mgr : Manager) (name : String) (value : Value) : Manager :=
  match mgr._metrics.find name with
  | none => mgr
  | some tm =>
    match ConcreteMetric.add tm value with
    | none => mgr
    | some metric => { mgr with _metrics := mgr._metrics.modify name (fun _ => metric) }

/-- The member `setValue<T>(name, value)`, where `T` is the type of `value`. -/
def Manager.setValue (mgr : Manager) (name : String) (value : Value) : Manager :=
  match mgr._metrics.find name with
  | none => mgr
  | some tm =>
    match ConcreteMetric.set tm value with
    | none => mgr
    | some metric => { mgr with _metrics := mgr._metrics.modify name (fun _ => metric) }

/-- The text written for one node by the loop body of `logMetrics`. -/
def entryText (p : String × Metric) : String :=
  "\"" ++ p.1 ++ "\"" ++ " " ++ ConcreteMetric.getValueAsString p.2 ++ " "

/-- The range-for loop of `logMetrics` over the nodes: each node's entry is
written to the file and its metric is reset. The result is the file text and
the nodes after the loop. -/
def logLoop : List (String × Metric) → String → String × List (String × Metric)
  | [], file => (file, [])
  | (name, metric) :: rest, file =>
    let r := logLoop rest (file ++ entryText (name, metric))
    (r.1, (name, ConcreteMetric.reset metric) :: r.2)

/-- The member `logMetrics()`. `now` is the reading of the system clock in
nanoseconds since the epoch and `localtime` the conversion of `std::localtime`. -/
def Manager.logMetrics (mgr : Manager) (localtime : Int → Tm) (now : Int) : Manager :=
  let file := mgr._file ++ timestamp localtime now
  let r := logLoop mgr._metrics.nodes file
  { _metrics :=
      { nodes := r.2
        unique := by
          have h : ∀ (l : List (String × Metric)) (f : String),
              (logLoop l f).2.map Prod.fst = l.map Prod.fst := by
            intro l
            induction l with
            | nil => intro f; rfl
            | cons p t ih =>
              intro f
              obtain ⟨k, m⟩ := p
              simp only [logLoop, List.map_cons, ih]
          rw [h]
          exact mgr._metrics.unique }
    _file := r.1 ++ "\n" }

/-- A call of `createMetric<T>(name)` or `deleteMetric(name)`. -/
inductive Call where
  | create (T : Kind) (name : String)
  | delete (name : String)
  deriving DecidableEq

/-- The name a call mentions. -/
def Call.name : Call → String
  | Call.create _ name => name
  | Call.delete name => name

/-- One call applied to a manager. -/
def Manager.call (mgr : Manager) : Call → Manager
  | Call.create T name => mgr.createMetric T name
  | Call.delete name => mgr.deleteMetric name

/-- A sequence of calls applied in order. -/
def Manager.run (mgr : Manager) (calls : List Call) : Manager :=
  calls.foldl Manager.call mgr

/-- The last call of a sequence that mentions `name`, if any. -/
def lastCall (name : String) (calls : List Call) : Option Call :=
  calls.reverse.find? (fun c => decide (c.name = name))

/-- The registry of `main` after its two first `createMetric` calls, with an
empty file. -/
def demoManager : Manager :=
  (({ _metrics := MetricsMap.empty, _file := "" } : Manager).createMetric Kind.Float "CPU").createMetric
    Kind.Integer "HTTP requests RPS"

/-- The manager after `k` successive `logMetrics()` calls, the `i`-th of them
(counted from zero) made at clock reading `clock i`. -/
def Manager.logTimes (mgr : Manager) (localtime : Int → Tm) (clock : Nat → Int) : Nat → Manager
  | 0 => mgr
  | k + 1 => (Manager.logTimes mgr localtime clock k).logMetrics localtime (clock k)

/-- The conversion of `std::localtime` in the UTC time zone, for the instants
of the first day after the epoch (1970-01-01); used in examples. -/
def firstDayTm (t : Int) : Tm :=
  { tm_year := 70, tm_mon := 0, tm_mday := 1,
    tm_hour := t.toNat / 3600 % 24, tm_min := t.toNat / 60 % 60, tm_sec := t.toNat % 60 }

/-- A registry with an empty file and one `int` metric whose name has a line
break in it. -/
def lineBreakManager : Manager :=
  ({ _metrics := MetricsMap.empty, _file := "" } : Manager).createMetric Kind.Integer "a\nb"

/-! ## Atomic increments from several threads

`std::atomic<T>::operator+=` is one atomic read-modify-write. All such
operations on one atomic object take effect one after another, each on the
value the previous one left. An interleaving of the threads is therefore the
list of the threads in the order in which their increments take effect. -/

/-- The metric after the calls `add(1)` of a schedule took effect in order;
the schedule names the calling thread of each increment. -/
def runIncrements (schedule : List Nat) (m : Metric) : Metric :=
  schedule.foldl
    (fun cur _ =>
      match ConcreteMetric.add cur (Value.int (CInt.ofInt 1)) with
      | some next => next
      | none => cur)
    m

/-- A schedule of the threads `0 .. N-1` in which every thread performs `per`
increments. -/
def IsSchedule (N per : Nat) (schedule : List Nat) : Prop :=
  (∀ t ∈ schedule, t < N) ∧ ∀ t, t < N → schedule.count t = per

/-- The schedule in which the threads run one after the other, each doing all
its `per` increments in a row. -/
def blockSchedule (per : Nat) : Nat → List Nat
  | 0 => []
  | N + 1 => blockSchedule per N ++ List.replicate per N

/-! ## The statements of a log cycle

`Manager` has no mutex and no member function takes a lock, so nothing orders
the statements of two calls that run at the same time. The statements of a
`logMetrics()` call are listed here one by one; a `createMetric` or
`deleteMetric` call of another thread is one more statement. Two threads are
run under a schedule that picks the thread executing its next statement. -/

/-- One statement executed by a thread. -/
inductive Statement where
  /-- The statement `_file << timestamp.str()` of `logMetrics`. -/
  | stamp (text : String)
  /-- The statement `_file << '"' << name << '"' << " " << metric->getValueAsString() << " "`
  of the loop of `logMetrics`, for the node with key `name`. -/
  | entry (name : String)
  /-- The statement `metric->reset()` of the loop of `logMetrics`, for the node
  with key `name`. -/
  | reset (name : String)
  /-- The statement `_file << std::endl` of `logMetrics`. -/
  | endl
  /-- A whole call `createMetric<T>(name)` or `deleteMetric(name)`. -/
  | call (c : Call)
  deriving DecidableEq

/-- The statements of one `logMetrics()` call in program order, for a map with
the keys `names` and the timestamp text `ts`. -/
def logProgram (names : List String) (ts : String) : List Statement :=
  Statement.stamp ts
    :: (names.flatMap (fun n => [Statement.entry n, Statement.reset n]) ++ [Statement.endl])

/-- A thread with the remaining statements `p` executes its next statement on
the shared manager; the result is its remaining statements and the manager,
or `none` when the statement has no defined result. The loop of `logMetrics`
refers to the node it is at: a node erased before the loop reaches it is not
visited (both its statements are skipped), and for a node erased between its
two statements `metric->reset()` goes through a reference to a destroyed
object, which has no defined result. A thread that has finished does nothing. -/
def execNext : List Statement → Manager → Option (List Statement × Manager)
  | [], mgr => some ([], mgr)
  | Statement.stamp text :: p, mgr => some (p, { mgr with _file := mgr._file ++ text })
  | Statement.entry name :: p, mgr =>
    match mgr._metrics.find name with
    | some metric => some (p, { mgr with _file := mgr._file ++ entryText (name, metric) })
    | none => some (p.drop 1, mgr)
  | Statement.reset name :: p, mgr =>
    match mgr._metrics.find name with
    | some _ => some (p, { mgr with _metrics := mgr._metrics.modify name ConcreteMetric.reset })
    | none => none
  | Statement.endl :: p, mgr => some (p, { mgr with _file := mgr._file ++ "\n" })
  | Statement.call c :: p, mgr => some (p, mgr.call c)

/-- Two threads executing the statement lists `p` and `q` on one manager; the
schedule tells, step by step, whether the first thread (`true`) or the second
(`false`) executes its next statement. -/
def runTwo : List Bool → List Statement → List Statement → Manager → Option Manager
  | [], _, _, mgr => some mgr
  | true :: s, p, q, mgr =>
    match execNext p mgr with
    | some (p', mgr') => runTwo s p' q mgr'
    | none => none
  | false :: s, p, q, mgr =>
    match execNext q mgr with
    | some (q', mgr') => runTwo s p q' mgr'
    | none => none

/-- The registry of `main` with the metric `HTTP requests RPS` set to 42. -/
def demoManager42 : Manager :=
  demoManager.setValue "HTTP requests RPS" (Value.int (CInt.ofInt 42))

/-! ## Lemmas on the map -/

theorem MetricsMap.ext_nodes {a b : MetricsMap} (h : a.nodes = b.nodes) : a = b := by
  cases a; cases b; cases h; rfl

theorem findNode_eq_none_iff (name : String) (nodes : List (String × Metric)) :
    findNode name nodes = none ↔ name ∉ nodes.map Prod.fst := by
  induction nodes with
  | nil => simp [findNode]
  | cons p t ih =>
    obtain ⟨k, m⟩ := p
    by_cases hk : k = name
    · simp [findNode, hk]
    · have hk2 : ¬ name = k := fun e => hk e.symm
      simp [findNode, hk, hk2, ih]

theorem findNode_mem {name : String} {m : Metric} {nodes : List (String × Metric)}
    (h : findNode name nodes = some m) : (name, m) ∈ nodes := by
  induction nodes with
  | nil => simp [findNode] at h
  | cons p t ih =>
    obtain ⟨k, x⟩ := p
    by_cases hk : k = name
    · simp [findNode, hk] at h
      subst hk; subst h
      exact List.mem_cons_self _ _
    · simp [findNode, hk] at h
      exact List.mem_cons_of_mem _ (ih h)

theorem findNode_of_mem {name : String} {m : Metric} {nodes : List (String × Metric)}
    (hu : (nodes.map Prod.fst).Nodup) (h : (name, m) ∈ nodes) : findNode name nodes = some m := by
  induction nodes with
  | nil => simp at h
  | cons p t ih =>
    obtain ⟨k, x⟩ := p
    simp only [List.map_cons, List.nodup_cons] at hu
    rcases List.mem_cons.mp h with e | e
    · cases e
      simp [findNode]
    · have hk : k ≠ name := by
        intro e2
        subst e2
        exact hu.1 (List.mem_map_of_mem Prod.fst e)
      simp [findNode, hk, ih hu.2 e]

theorem findNode_cons (n k : String) (m : Metric) (t : List (String × Metric)) :
    findNode n ((k, m) :: t) = if k = n then some m else findNode n t := rfl

theorem findNode_modify (name n : String) (f : Metric → Metric) (nodes : List (String × Metric)) :
    findNode n (nodes.map (fun p => if p.1 = name then (p.1, f p.2) else p))
      = if n = name then (findNode name nodes).map f else findNode n nodes := by
  induction nodes with
  | nil => simp [findNode]
  | cons p t ih =>
    obtain ⟨k, m⟩ := p
    rw [List.map_cons, findNode_cons, findNode_cons]
    by_cases hk : k = name
    · have e : (if (k, m).1 = name then ((k, m).1, f (k, m).2) else (k, m)) = (k, f m) := if_pos hk
      rw [e, findNode_cons, ih]
      by_cases hn : n = name
      · have hkn : k = n := hk.trans hn.symm
        simp [hkn, hn]
      · have hkn : ¬ k = n := fun e2 => hn (e2.symm.trans hk)
        simp [hkn, hn]
    · have e : (if (k, m).1 = name then ((k, m).1, f (k, m).2) else (k, m)) = (k, m) := if_neg hk
      rw [e, findNode_cons, ih]
      by_cases hn : n = name
      · have hkn : ¬ k = n := fun e2 => hk (e2.trans hn)
        simp [hkn, hn, hk]
      · simp [hn]

theorem MetricsMap.find_modify (mp : MetricsMap) (name n : String) (f : Metric → Metric) :
    (mp.modify name f).find n = if n = name then (mp.find name).map f else mp.find n :=
  findNode_modify name n f mp.nodes

theorem MetricsMap.names_modify (mp : MetricsMap) (name : String) (f : Metric → Metric) :
    (mp.modify name f).names = mp.names := by
  unfold MetricsMap.names MetricsMap.modify
  simp only
  rw [List.map_map]
  apply List.map_congr_left
  intro p _
  simp only [Function.comp]
  split <;> rfl

theorem MetricsMap.find_eq_none_iff (mp : MetricsMap) (name : String) :
    mp.find name = none ↔ name ∉ mp.names :=
  findNode_eq_none_iff name mp.nodes

theorem MetricsMap.find_assign (mp : MetricsMap) (name n : String) (metric : Metric) :
    (mp.assign name metric).find n = if n = name then some metric else mp.find n := by
  unfold MetricsMap.assign
  by_cases h : name ∈ mp.nodes.map Prod.fst
  · rw [dif_pos h, MetricsMap.find_modify]
    by_cases hn : n = name
    · have hs : mp.find name ≠ none := fun e => (mp.find_eq_none_iff name).mp e h
      obtain ⟨m, hm⟩ := Option.ne_none_iff_exists'.mp hs
      simp [hn, hm]
    · simp [hn]
  · rw [dif_neg h]
    by_cases hn : n = name
    · simp [MetricsMap.find, findNode, hn]
    · have hn2 : ¬ name = n := fun e => hn e.symm
      simp [MetricsMap.find, findNode, hn, hn2]

theorem findNode_filter (name n : String) (nodes : List (String × Metric)) :
    findNode n (nodes.filter (fun p => decide (p.1 ≠ name)))
      = if n = name then none else findNode n nodes := by
  induction nodes with
  | nil => simp [findNode]
  | cons p t ih =>
    obtain ⟨k, m⟩ := p
    rw [List.filter_cons, findNode_cons]
    by_cases hk : k = name
    · have e : decide ((k, m).1 ≠ name) = false := decide_eq_false (fun h => h hk)
      rw [e, if_neg Bool.false_ne_true, ih]
      by_cases hn : n = name
      · simp [hn]
      · have hkn : ¬ k = n := fun e2 => hn (e2.symm.trans hk)
        simp [hn, hkn]
    · have e : decide ((k, m).1 ≠ name) = true := decide_eq_true hk
      rw [e, if_pos rfl, findNode_cons, ih]
      by_cases hn : n = name
      · have hkn : ¬ k = n := fun e2 => hk (e2.trans hn)
        simp [hn, hk]
      · simp [hn]

theorem MetricsMap.find_erase (mp : MetricsMap) (name n : String) :
    (mp.erase name).find n = if n = name then none else mp.find n :=
  findNode_filter name n mp.nodes

theorem MetricsMap.erase_absent (mp : MetricsMap) (name : String) (h : mp.find name = none) :
    mp.erase name = mp := by
  apply MetricsMap.ext_nodes
  unfold MetricsMap.erase
  simp only
  rw [List.filter_eq_self]
  intro p hp
  have hn := (mp.find_eq_none_iff name).mp h
  simp only [decide_eq_true_eq]
  intro e
  exact hn (e ▸ List.mem_map_of_mem Prod.fst hp)

/-! ## Creating and deleting metrics -/

/-- C1. After `createMetric<T>(name)` the registry maps `name` to a metric of
kind `T` whose value is the zero of `T`, whatever was stored under `name`
before; the lookup of every other name gives what it gave before, and the file
text is untouched. -/
theorem createMetric_spec (mgr : Manager) (T : Kind) (name : String) :
    (∃ m, (mgr.createMetric T name)._metrics.find name = some m
        ∧ m.kind = T ∧ m._value = Value.zero T ∧ m._name = name)
    ∧ (∀ other, other ≠ name →
        (mgr.createMetric T name)._metrics.find other = mgr._metrics.find other)
    ∧ (mgr.createMetric T name)._file = mgr._file := by
  refine ⟨⟨ConcreteMetric.new T name, ?_, ?_, rfl, rfl⟩, ?_, rfl⟩
  · simp [Manager.createMetric, MetricsMap.find_assign]
  · cases T <;> rfl
  · intro other ho
    simp [Manager.createMetric, MetricsMap.find_assign, ho]

/-- C2. The call `deleteMetric(name)` always returns a registry in which `name`
is absent; it returns the registry it was given when `name` was absent
already; the lookup of every other name gives what it gave before, and the
file text is untouched. -/
theorem deleteMetric_spec (mgr : Manager) (name : String) :
    (mgr.deleteMetric name)._metrics.find name = none
    ∧ (mgr._metrics.find name = none → mgr.deleteMetric name = mgr)
    ∧ (∀ other, other ≠ name →
        (mgr.deleteMetric name)._metrics.find other = mgr._metrics.find other)
    ∧ (mgr.deleteMetric name)._file = mgr._file := by
  refine ⟨?_, ?_, ?_, rfl⟩
  · simp [Manager.deleteMetric, MetricsMap.find_erase]
  · intro h
    unfold Manager.deleteMetric
    rw [MetricsMap.erase_absent _ _ h]
  · intro other ho
    simp [Manager.deleteMetric, MetricsMap.find_erase, ho]

theorem lastCall_cons (name : String) (c : Call) (cs : List Call) :
    lastCall name (c :: cs)
      = match lastCall name cs with
        | some x => some x
        | none => if c.name = name then some c else none := by
  unfold lastCall
  rw [List.reverse_cons, List.find?_append]
  cases h : List.find? (fun c => decide (c.name = name)) cs.reverse with
  | some x => rfl
  | none =>
    by_cases hc : c.name = name
    · simp [List.find?_cons, hc]
    · simp [List.find?_cons, hc]

theorem Manager.run_cons (mgr : Manager) (c : Call) (cs : List Call) :
    mgr.run (c :: cs) = (mgr.call c).run cs := rfl

theorem Manager.find_call (mgr : Manager) (c : Call) (name : String) :
    (mgr.call c)._metrics.find name
      = if name = c.name then
          (match c with
           | Call.create T _ => some (ConcreteMetric.new T name)
           | Call.delete _ => none)
        else mgr._metrics.find name := by
  cases c with
  | create T n =>
    by_cases h : name = n
    · simp [Manager.call, Manager.createMetric, MetricsMap.find_assign, Call.name, h]
    · simp [Manager.call, Manager.createMetric, MetricsMap.find_assign, Call.name, h]
  | delete n =>
    by_cases h : name = n
    · simp [Manager.call, Manager.deleteMetric, MetricsMap.find_erase, Call.name, h]
    · simp [Manager.call, Manager.deleteMetric, MetricsMap.find_erase, Call.name, h]

theorem Manager.find_run (calls : List Call) (mgr : Manager) (name : String) :
    (mgr.run calls)._metrics.find name
      = match lastCall name calls with
        | some (Call.create T _) => some (ConcreteMetric.new T name)
        | some (Call.delete _) => none
        | none => mgr._metrics.find name := by
  induction calls generalizing mgr with
  | nil => rfl
  | cons c cs ih =>
    rw [Manager.run_cons, ih, lastCall_cons]
    cases h : lastCall name cs with
    | some x => cases x <;> rfl
    | none =>
      simp only
      rw [Manager.find_call]
      by_cases hc : c.name = name
      · have hc2 : name = c.name := hc.symm
        rw [if_pos hc, if_pos hc2]
        cases c <;> rfl
      · have hc2 : ¬ name = c.name := fun e => hc e.symm
        rw [if_neg hc, if_neg hc2]

/-- C3. After any finite sequence of `createMetric`/`deleteMetric` calls on an
empty registry, a name is present exactly when the last call that mentions it
is a `createMetric`; the metric stored under it then has the kind of that call
and value zero; and the keys of the map are pairwise distinct, so no name has
more than one metric. -/
theorem create_delete_sequence (file : String) (calls : List Call) (name : String) :
    ((({ _metrics := MetricsMap.empty, _file := file } : Manager).run calls)._metrics.find name ≠ none
        ↔ ∃ T n, lastCall name calls = some (Call.create T n))
    ∧ (∀ T n, lastCall name calls = some (Call.create T n) →
        ∃ m, (({ _metrics := MetricsMap.empty, _file := file } : Manager).run calls)._metrics.find name = some m
          ∧ m.kind = T ∧ m._value = Value.zero T)
    ∧ (({ _metrics := MetricsMap.empty, _file := file } : Manager).run calls)._metrics.names.Nodup
    ∧ (({ _metrics := MetricsMap.empty, _file := file } : Manager).run calls)._metrics.names.count name ≤ 1 := by
  have hf := Manager.find_run calls { _metrics := MetricsMap.empty, _file := file } name
  refine ⟨?_, ?_, ?_, ?_⟩
  · rw [hf]
    cases h : lastCall name calls with
    | none => simp [MetricsMap.find, MetricsMap.empty, findNode]
    | some c =>
      cases c with
      | create T n => simp
      | delete n => simp
  · intro T n h
    rw [hf, h]
    refine ⟨ConcreteMetric.new T name, rfl, ?_, rfl⟩
    cases T <;> rfl
  · exact MetricsMap.unique _
  · exact List.nodup_iff_count_le_one.mp (MetricsMap.unique _) name

/-! ## Rounding -/

theorem ulpSearch_spec (fl : Nat) (fuel u : Nat) (hu : 0 < u)
    (hfuel : fl < 9007199254740992 * u * 2 ^ fuel)
    (hlow : u = 1 ∨ 4503599627370496 * u ≤ fl) :
    fl < 9007199254740992 * ulpSearch fl fuel u
      ∧ (ulpSearch fl fuel u = 1 ∨ 4503599627370496 * ulpSearch fl fuel u ≤ fl) := by
  induction fuel generalizing u with
  | zero =>
    simp only [ulpSearch]
    simp only [pow_zero, mul_one] at hfuel
    exact ⟨hfuel, hlow⟩
  | succ k ih =>
    simp only [ulpSearch]
    by_cases h : fl < 9007199254740992 * u
    · rw [if_pos h]
      exact ⟨h, hlow⟩
    · rw [if_neg h]
      apply ih (2 * u) (by omega)
      · have e : 9007199254740992 * (2 * u) * 2 ^ k = 9007199254740992 * u * 2 ^ (k + 1) := by
          rw [pow_succ]
          ring
        rw [e]
        exact hfuel
      · right
        omega

/-- The spacing used by `Double.roundMag` is the one of the binade of the
magnitude: the search never runs out of fuel. -/
theorem ulpSearch_ok (fl : Nat) :
    fl < 9007199254740992 * ulpSearch fl fl 1
      ∧ (ulpSearch fl fl 1 = 1 ∨ 4503599627370496 * ulpSearch fl fl 1 ≤ fl) := by
  apply ulpSearch_spec fl fl 1 (by decide) _ (Or.inl rfl)
  have h : fl < 2 ^ fl := Nat.lt_two_pow fl
  calc fl < 2 ^ fl := h
    _ ≤ 9007199254740992 * 1 * 2 ^ fl := by
      have : 0 < 2 ^ fl := Nat.pos_pow_of_pos fl (by decide)
      omega

theorem roundHalfEven_nearest (num den : Nat) (hden : 0 < den) :
    2 * (roundHalfEven num den * den) ≤ 2 * num + den
      ∧ 2 * num ≤ 2 * (roundHalfEven num den * den) + den := by
  have hdm := Nat.div_add_mod num den
  have hlt := Nat.mod_lt num hden
  have hc : num / den * den = den * (num / den) := Nat.mul_comm _ _
  have hs : (num / den + 1) * den = den * (num / den) + den := by
    rw [Nat.add_mul, Nat.one_mul, hc]
  unfold roundHalfEven
  simp only
  split
  · rw [hc]; omega
  · split
    · split
      · rw [hc]; omega
      · rw [hs]; omega
    · rw [hs]; omega

theorem roundHalfEven_tie (num den : Nat) (hden : 0 < den)
    (h : 2 * (roundHalfEven num den * den) = 2 * num + den
      ∨ 2 * num = 2 * (roundHalfEven num den * den) + den) :
    roundHalfEven num den % 2 = 0 := by
  have hdm := Nat.div_add_mod num den
  have hlt := Nat.mod_lt num hden
  have hc : num / den * den = den * (num / den) := Nat.mul_comm _ _
  have hs : (num / den + 1) * den = den * (num / den) + den := by
    rw [Nat.add_mul, Nat.one_mul, hc]
  unfold roundHalfEven at h ⊢
  simp only at h ⊢
  split
  · rename_i h1
    rw [if_pos h1, hc] at h
    omega
  · rename_i h1
    rw [if_neg h1] at h
    split
    · rename_i h2
      rw [if_pos h2] at h
      split
      · assumption
      · omega
    · rename_i h2
      rw [if_neg h2, hs] at h
      omega

theorem roundHalfEven_isNearestEven (n u : Nat) (hu : 0 < u) :
    IsNearestEven n u (roundHalfEven n u * u) :=
  ⟨roundHalfEven n u, rfl, (roundHalfEven_nearest n u hu).1, (roundHalfEven_nearest n u hu).2,
    roundHalfEven_tie n u hu⟩

/-- The nearest-even multiple is unique: the relation fixes the rounded value. -/
theorem isNearestEven_unique {n u r r' : Nat} (hu : 0 < u)
    (h : IsNearestEven n u r) (h' : IsNearestEven n u r') : r = r' := by
  obtain ⟨q, hr, h1, h2, h3⟩ := h
  obtain ⟨q', hr', h1', h2', h3'⟩ := h'
  rcases Nat.lt_trichotomy q q' with hlt | heq | hgt
  · have hle : (q + 1) * u ≤ q' * u := Nat.mul_le_mul_right u hlt
    rw [Nat.add_mul, Nat.one_mul, ← hr, ← hr'] at hle
    have e : r' = r + u := by omega
    have e2 : q' * u = (q + 1) * u := by rw [Nat.add_mul, Nat.one_mul, ← hr, ← hr', e]
    have e3 : q' = q + 1 := Nat.eq_of_mul_eq_mul_right hu e2
    have t1 := h3 (Or.inr (by omega))
    have t2 := h3' (Or.inl (by omega))
    omega
  · rw [hr, hr', heq]
  · have hle : (q' + 1) * u ≤ q * u := Nat.mul_le_mul_right u hgt
    rw [Nat.add_mul, Nat.one_mul, ← hr, ← hr'] at hle
    have e : r = r' + u := by omega
    have e2 : q * u = (q' + 1) * u := by rw [Nat.add_mul, Nat.one_mul, ← hr, ← hr', e]
    have e3 : q = q' + 1 := Nat.eq_of_mul_eq_mul_right hu e2
    have t1 := h3' (Or.inr (by omega))
    have t2 := h3 (Or.inl (by omega))
    omega

theorem ulpSearch_pow (fl : Nat) (fuel : Nat) : ∀ u, (∃ k, u = 2 ^ k) →
    ∃ k, ulpSearch fl fuel u = 2 ^ k := by
  induction fuel with
  | zero =>
    intro u h
    exact h
  | succ f ih =>
    intro u h
    simp only [ulpSearch]
    split
    · exact h
    · obtain ⟨k, hk⟩ := h
      exact ih (2 * u) ⟨k + 1, by rw [hk, pow_succ, Nat.mul_comm]⟩

theorem ulpSearch_isSpacing (n : Nat) : IsSpacing n (ulpSearch n n 1) :=
  ⟨ulpSearch_pow n n 1 ⟨0, rfl⟩, (ulpSearch_ok n).1, (ulpSearch_ok n).2⟩

theorem ulpSearch_pos (n : Nat) : 0 < ulpSearch n n 1 := by
  obtain ⟨k, hk⟩ := ulpSearch_pow n n 1 ⟨0, rfl⟩
  rw [hk]
  exact Nat.pos_pow_of_pos k (by decide)

/-- The spacing of the doubles around a magnitude is unique. -/
theorem isSpacing_unique {n u u' : Nat} (h : IsSpacing n u) (h' : IsSpacing n u') : u = u' := by
  obtain ⟨⟨k, hk⟩, h1, h2⟩ := h
  obtain ⟨⟨k', hk'⟩, h1', h2'⟩ := h'
  subst hk
  subst hk'
  rcases Nat.lt_trichotomy k k' with hlt | heq | hgt
  · exfalso
    have hp : 2 ^ (k + 1) ≤ 2 ^ k' := Nat.pow_le_pow_right (by decide) hlt
    rw [pow_succ] at hp
    have h0 : 0 < 2 ^ k := Nat.pos_pow_of_pos k (by decide)
    rcases h2' with e | e
    · omega
    · omega
  · rw [heq]
  · exfalso
    have hp : 2 ^ (k' + 1) ≤ 2 ^ k := Nat.pow_le_pow_right (by decide) hgt
    rw [pow_succ] at hp
    have h0 : 0 < 2 ^ k' := Nat.pos_pow_of_pos k' (by decide)
    rcases h2 with e | e
    · omega
    · omega

theorem isSpacing_pos {n u : Nat} (h : IsSpacing n u) : 0 < u := by
  obtain ⟨⟨k, hk⟩, _, _⟩ := h
  rw [hk]
  exact Nat.pos_pow_of_pos k (by decide)

theorem Double.add_finite (na : Bool) (a : Nat) (nb : Bool) (b : Nat) :
    Double.IsSumOf (Double.finite na a) (Double.finite nb b)
      (Double.add (Double.finite na a) (Double.finite nb b)) := by
  have hs : Double.signed na a + Double.signed nb b = exactSum na a nb b := rfl
  constructor
  · intro h
    show (if Double.signed na a + Double.signed nb b = 0 then _ else _) = _
    rw [hs, if_pos h]
  · intro h
    have hadd : Double.add (Double.finite na a) (Double.finite nb b)
        = Double.round (decide (exactSum na a nb b < 0)) (exactSum na a nb b).natAbs 1 := by
      show (if Double.signed na a + Double.signed nb b = 0 then _ else _) = _
      rw [hs, if_neg h]
    have hr : Double.roundMag (exactSum na a nb b).natAbs 1
        = roundHalfEven (exactSum na a nb b).natAbs
            (ulpSearch (exactSum na a nb b).natAbs (exactSum na a nb b).natAbs 1)
          * ulpSearch (exactSum na a nb b).natAbs (exactSum na a nb b).natAbs 1 := by
      unfold Double.roundMag
      simp only [Nat.div_one, Nat.one_mul]
    refine ⟨ulpSearch _ _ 1, roundHalfEven _ (ulpSearch _ _ 1) * ulpSearch _ _ 1,
      ulpSearch_isSpacing _, roundHalfEven_isNearestEven _ _ (ulpSearch_pos _), ?_, ?_⟩
    · intro hlt
      rw [hadd]
      unfold Double.round
      simp only
      rw [hr, if_pos hlt]
    · intro hge
      rw [hadd]
      unfold Double.round
      simp only
      rw [hr, if_neg (Nat.not_lt.mpr hge)]

/-- The result of `Double.add` is the IEEE-754 sum of its operands. -/
theorem Double.add_isSumOf (x d : Double) : Double.IsSumOf x d (Double.add x d) := by
  cases x with
  | nan => cases d <;> rfl
  | inf sa =>
    cases d with
    | nan => rfl
    | finite nb b => rfl
    | inf sb =>
      show (sa = sb → (if sa = sb then Double.inf sa else Double.nan) = Double.inf sa)
        ∧ (sa ≠ sb → (if sa = sb then Double.inf sa else Double.nan) = Double.nan)
      exact ⟨fun h => if_pos h, fun h => if_neg h⟩
  | finite na a =>
    cases d with
    | nan => rfl
    | inf sb => rfl
    | finite nb b => exact Double.add_finite na a nb b

/-- The IEEE-754 sum is determined by the relation: two results related to the
same operands are equal. -/
theorem Double.isSumOf_unique {x d y y' : Double}
    (h : Double.IsSumOf x d y) (h' : Double.IsSumOf x d y') : y = y' := by
  cases x with
  | nan =>
    cases d <;> exact Eq.trans h (Eq.symm h')
  | inf sa =>
    cases d with
    | nan => exact Eq.trans h (Eq.symm h')
    | finite nb b => exact Eq.trans h (Eq.symm h')
    | inf sb =>
      by_cases e : sa = sb
      · exact Eq.trans (h.1 e) (Eq.symm (h'.1 e))
      · exact Eq.trans (h.2 e) (Eq.symm (h'.2 e))
  | finite na a =>
    cases d with
    | nan => exact Eq.trans h (Eq.symm h')
    | inf sb => exact Eq.trans h (Eq.symm h')
    | finite nb b =>
      by_cases e : exactSum na a nb b = 0
      · exact Eq.trans (h.1 e) (Eq.symm (h'.1 e))
      · obtain ⟨u, r, hu, hr, h1, h2⟩ := h.2 e
        obtain ⟨u', r', hu', hr', h1', h2'⟩ := h'.2 e
        have eu : u = u' := isSpacing_unique hu hu'
        subst eu
        have er : r = r' := isNearestEven_unique (isSpacing_pos hu) hr hr'
        subst er
        by_cases hlt : r < 2 ^ 2098
        · exact Eq.trans (h1 hlt) (Eq.symm (h1' hlt))
        · exact Eq.trans (h2 (Nat.not_lt.mp hlt)) (Eq.symm (h2' (Nat.not_lt.mp hlt)))

/-! ## Typed updates -/

theorem ConcreteMetric.add_eq_none {m : Metric} {value : Value} (h : m.kind ≠ value.kind) :
    ConcreteMetric.add m value = none := by
  obtain ⟨nm, v⟩ := m
  cases v <;> cases value <;> first | rfl | exact absurd rfl h

theorem ConcreteMetric.set_eq_none {m : Metric} {value : Value} (h : m.kind ≠ value.kind) :
    ConcreteMetric.set m value = none := by
  unfold ConcreteMetric.set
  rw [if_neg h]

theorem ConcreteMetric.add_kind {m m' : Metric} {value : Value}
    (h : ConcreteMetric.add m value = some m') : m'.kind = m.kind ∧ m'._name = m._name := by
  obtain ⟨nm, v⟩ := m
  cases v <;> cases value <;> simp [ConcreteMetric.add] at h <;> subst h <;> exact ⟨rfl, rfl⟩

theorem ConcreteMetric.add_isSome {m : Metric} {value : Value} (h : m.kind = value.kind) :
    ∃ m', ConcreteMetric.add m value = some m' := by
  obtain ⟨nm, v⟩ := m
  cases v <;> cases value <;> first | exact ⟨_, rfl⟩ | exact absurd h (fun e => Kind.noConfusion e)

theorem Manager.addValue_of_add {mgr : Manager} {name : String} {m m' : Metric} {value : Value}
    (hfind : mgr._metrics.find name = some m) (hadd : ConcreteMetric.add m value = some m') :
    mgr.addValue name value = { mgr with _metrics := mgr._metrics.modify name (fun _ => m') } := by
  unfold Manager.addValue
  rw [hfind]
  simp only
  rw [hadd]

theorem Manager.setValue_of_set {mgr : Manager} {name : String} {m m' : Metric} {value : Value}
    (hfind : mgr._metrics.find name = some m) (hset : ConcreteMetric.set m value = some m') :
    mgr.setValue name value = { mgr with _metrics := mgr._metrics.modify name (fun _ => m') } := by
  unfold Manager.setValue
  rw [hfind]
  simp only
  rw [hset]

/-- C4. When `name` is absent, or present with a kind other than the type of
`value`, both `addValue<T>(name, value)` and `setValue<T>(name, value)` return
the registry they were given: same names, kinds, values and file text. Both
functions are total, so no error is raised. -/
theorem addValue_setValue_noop (mgr : Manager) (name : String) (value : Value)
    (h : mgr._metrics.find name = none
      ∨ ∃ m, mgr._metrics.find name = some m ∧ m.kind ≠ value.kind) :
    mgr.addValue name value = mgr ∧ mgr.setValue name value = mgr := by
  rcases h with h | ⟨m, hm, hk⟩
  · constructor
    · unfold Manager.addValue
      rw [h]
    · unfold Manager.setValue
      rw [h]
  · constructor
    · unfold Manager.addValue
      rw [hm]
      simp only
      rw [ConcreteMetric.add_eq_none hk]
    · unfold Manager.setValue
      rw [hm]
      simp only
      rw [ConcreteMetric.set_eq_none hk]

/-- C5. When `name` is present with a metric of the kind of `d`, after
`addValue<T>(name, d)` the metric under `name` has the same kind and name and
its value is the old value plus `d`: for `int` the sum reduced into the 32-bit
two's-complement range, for `double` the IEEE-754 sum, that is the exact sum
rounded to the nearest double, ties to even (`Double.IsSumOf`). Every other
name's metric, the order of the names and the file text are unchanged. -/
theorem addValue_spec (mgr : Manager) (name : String) (m : Metric) (d : Value)
    (hfind : mgr._metrics.find name = some m) (hkind : m.kind = d.kind) :
    (∃ m', (mgr.addValue name d)._metrics.find name = some m'
        ∧ m'.kind = m.kind ∧ m'._name = m._name
        ∧ (∀ x dv, m._value = Value.int x → d = Value.int dv →
            ∃ y, m'._value = Value.int y ∧ y.val = wrap32 (x.val + dv.val))
        ∧ (∀ x dv, m._value = Value.double x → d = Value.double dv →
            ∃ y, m'._value = Value.double y ∧ Double.IsSumOf x dv y))
    ∧ (∀ other, other ≠ name →
        (mgr.addValue name d)._metrics.find other = mgr._metrics.find other)
    ∧ (mgr.addValue name d)._metrics.names = mgr._metrics.names
    ∧ (mgr.addValue name d)._file = mgr._file := by
  obtain ⟨m', hadd⟩ := ConcreteMetric.add_isSome hkind
  rw [Manager.addValue_of_add hfind hadd]
  refine ⟨⟨m', ?_, (ConcreteMetric.add_kind hadd).1, (ConcreteMetric.add_kind hadd).2, ?_, ?_⟩,
    ?_, ?_, rfl⟩
  · simp [MetricsMap.find_modify, hfind]
  · intro x dv hx hd
    obtain ⟨nm, v⟩ := m
    simp only at hx
    subst hx
    subst hd
    simp [ConcreteMetric.add] at hadd
    subst hadd
    exact ⟨CInt.add x dv, rfl, rfl⟩
  · intro x dv hx hd
    obtain ⟨nm, v⟩ := m
    simp only at hx
    subst hx
    subst hd
    simp [ConcreteMetric.add] at hadd
    subst hadd
    exact ⟨Double.add x dv, rfl, Double.add_isSumOf x dv⟩
  · intro other ho
    simp [MetricsMap.find_modify, ho]
  · exact MetricsMap.names_modify _ _ _

/-- C6. When `name` is present with a metric of the kind of `v`, after
`setValue<T>(name, v)` the metric under `name` has value exactly `v`, whatever
its value was, and the same kind and name. Every other name's metric, the
order of the names and the file text are unchanged. -/
theorem setValue_spec (mgr : Manager) (name : String) (m : Metric) (v : Value)
    (hfind : mgr._metrics.find name = some m) (hkind : m.kind = v.kind) :
    (∃ m', (mgr.setValue name v)._metrics.find name = some m'
        ∧ m'._value = v ∧ m'.kind = m.kind ∧ m'._name = m._name)
    ∧ (∀ other, other ≠ name →
        (mgr.setValue name v)._metrics.find other = mgr._metrics.find other)
    ∧ (mgr.setValue name v)._metrics.names = mgr._metrics.names
    ∧ (mgr.setValue name v)._file = mgr._file := by
  have hset : ConcreteMetric.set m v = some { m with _value := v } := by
    unfold ConcreteMetric.set
    rw [if_pos hkind]
  rw [Manager.setValue_of_set hfind hset]
  refine ⟨⟨{ m with _value := v }, ?_, rfl, hkind.symm, rfl⟩, ?_, ?_, rfl⟩
  · simp [MetricsMap.find_modify, hfind]
  · intro other ho
    simp [MetricsMap.find_modify, ho]
  · exact MetricsMap.names_modify _ _ _

/-- Instance of C4: an `int` update of the `double` metric `CPU` of `main` changes nothing. -/
theorem addValue_setValue_noop_witness :
    demoManager.addValue "CPU" (Value.int (CInt.ofInt 1)) = demoManager
      ∧ demoManager.setValue "CPU" (Value.int (CInt.ofInt 1)) = demoManager :=
  addValue_setValue_noop demoManager "CPU" (Value.int (CInt.ofInt 1))
    (Or.inr ⟨ConcreteMetric.new Kind.Float "CPU", by decide, by decide⟩)

/-- Instance of C5: adding 12 to the `int` metric of `main` gives 12, and
adding the literal `0.2` to the `double` metric `CPU` holding `0.1` gives the
double `0x1.3333333333334p-2`, which is 0.30000000000000004. -/
theorem addValue_spec_witness :
    (∃ m', (demoManager.addValue "HTTP requests RPS" (Value.int (CInt.ofInt 12)))._metrics.find
        "HTTP requests RPS" = some m' ∧ m'.kind = Kind.Integer
        ∧ ∃ y, m'._value = Value.int y ∧ y.val = 12)
    ∧ (∃ m', ((demoManager.setValue "CPU" (Value.double (Double.ofRatio 1 10))).addValue "CPU"
          (Value.double (Double.ofRatio 2 10)))._metrics.find "CPU" = some m'
        ∧ m'._value = Value.double (Double.finite false (5404319552844596 * 2 ^ 1020))) := by
  constructor
  · obtain ⟨⟨m', h1, h2, _, h4, _⟩, _⟩ := addValue_spec demoManager "HTTP requests RPS"
      (ConcreteMetric.new Kind.Integer "HTTP requests RPS") (Value.int (CInt.ofInt 12))
      (by decide) (by decide)
    obtain ⟨y, hy, hv⟩ := h4 CInt.zero (CInt.ofInt 12) rfl rfl
    exact ⟨m', h1, h2, y, hy, hv.trans (by decide)⟩
  · obtain ⟨⟨m', h1, _, _, _, h5⟩, _⟩ := addValue_spec
      (demoManager.setValue "CPU" (Value.double (Double.ofRatio 1 10))) "CPU"
      { _name := "CPU", _value := Value.double (Double.ofRatio 1 10) }
      (Value.double (Double.ofRatio 2 10)) (by decide) (by decide)
    obtain ⟨y, hy, hs⟩ := h5 (Double.ofRatio 1 10) (Double.ofRatio 2 10) rfl rfl
    have e : y = Double.add (Double.ofRatio 1 10) (Double.ofRatio 2 10) :=
      Double.isSumOf_unique hs (Double.add_isSumOf _ _)
    have e2 : Double.add (Double.ofRatio 1 10) (Double.ofRatio 2 10)
        = Double.finite false (5404319552844596 * 2 ^ 1020) := by decide
    exact ⟨m', h1, by rw [hy, e, e2]⟩

/-- Instance of C6: setting the `int` metric of `main` to 42. -/
theorem setValue_spec_witness :
    ∃ m', (demoManager.setValue "HTTP requests RPS" (Value.int (CInt.ofInt 42)))._metrics.find
        "HTTP requests RPS" = some m' ∧ m'._value = Value.int (CInt.ofInt 42) :=
  have h := setValue_spec demoManager "HTTP requests RPS"
    (ConcreteMetric.new Kind.Integer "HTTP requests RPS") (Value.int (CInt.ofInt 42))
    (by decide) (by decide)
  match h.1 with
  | ⟨m', h1, h2, _⟩ => ⟨m', h1, h2⟩

/-! ## The log cycle -/

theorem logLoop_nodes (l : List (String × Metric)) (file : String) :
    (logLoop l file).2 = l.map (fun p => (p.1, ConcreteMetric.reset p.2)) := by
  induction l generalizing file with
  | nil => rfl
  | cons p t ih =>
    obtain ⟨k, m⟩ := p
    simp only [logLoop, List.map_cons, ih]

theorem String.join_cons_eq (a : String) (l : List String) :
    String.join (a :: l) = a ++ String.join l := by
  apply String.ext
  simp [String.data_join, String.data_append]

theorem logLoop_file (l : List (String × Metric)) (file : String) :
    (logLoop l file).1 = file ++ String.join (l.map entryText) := by
  induction l generalizing file with
  | nil =>
    apply String.ext
    simp [logLoop, String.data_join, String.data_append]
  | cons p t ih =>
    obtain ⟨k, m⟩ := p
    simp only [logLoop, List.map_cons, ih]
    rw [String.join_cons_eq, String.append_assoc]

theorem findNode_mapValues (n : String) (g : Metric → Metric) (l : List (String × Metric)) :
    findNode n (l.map (fun p => (p.1, g p.2))) = (findNode n l).map g := by
  induction l with
  | nil => rfl
  | cons p t ih =>
    obtain ⟨k, m⟩ := p
    rw [List.map_cons, findNode_cons, findNode_cons, ih]
    by_cases hk : k = n
    · simp [hk]
    · simp [hk]

theorem ConcreteMetric.reset_kind (m : Metric) : (ConcreteMetric.reset m).kind = m.kind := by
  obtain ⟨nm, v⟩ := m
  cases v <;> rfl

theorem Manager.find_logMetrics (mgr : Manager) (localtime : Int → Tm) (now : Int) (n : String) :
    (mgr.logMetrics localtime now)._metrics.find n
      = (mgr._metrics.find n).map ConcreteMetric.reset := by
  unfold Manager.logMetrics MetricsMap.find
  simp only
  rw [logLoop_nodes, findNode_mapValues]

theorem Manager.names_logMetrics (mgr : Manager) (localtime : Int → Tm) (now : Int) :
    (mgr.logMetrics localtime now)._metrics.names = mgr._metrics.names := by
  unfold Manager.logMetrics MetricsMap.names
  simp only
  rw [logLoop_nodes, List.map_map]
  rfl

theorem Manager.file_logMetrics (mgr : Manager) (localtime : Int → Tm) (now : Int) :
    (mgr.logMetrics localtime now)._file
      = mgr._file ++ (timestamp localtime now ++ String.join (mgr._metrics.nodes.map entryText) ++ "\n") := by
  unfold Manager.logMetrics
  simp only
  rw [logLoop_file]
  simp only [String.append_assoc]

/-- C7. After one `logMetrics()` call the names of the registry are the same,
in the same order, every metric that was present is still present with the
same kind and with value zero of that kind, and every metric present
afterwards has value zero of its kind and was present before with that kind. -/
theorem logMetrics_resets (mgr : Manager) (localtime : Int → Tm) (now : Int) :
    (mgr.logMetrics localtime now)._metrics.names = mgr._metrics.names
    ∧ (∀ name m, mgr._metrics.find name = some m →
        ∃ m', (mgr.logMetrics localtime now)._metrics.find name = some m'
          ∧ m'.kind = m.kind ∧ m'._value = Value.zero m.kind)
    ∧ (∀ name m', (mgr.logMetrics localtime now)._metrics.find name = some m' →
        m'._value = Value.zero m'.kind
          ∧ ∃ m, mgr._metrics.find name = some m ∧ m.kind = m'.kind) := by
  refine ⟨Manager.names_logMetrics mgr localtime now, ?_, ?_⟩
  · intro name m hm
    refine ⟨ConcreteMetric.reset m, ?_, ConcreteMetric.reset_kind m, rfl⟩
    rw [Manager.find_logMetrics, hm]
    rfl
  · intro name m' hm'
    rw [Manager.find_logMetrics] at hm'
    cases hf : mgr._metrics.find name with
    | none => rw [hf] at hm'; cases hm'
    | some m =>
      rw [hf] at hm'
      simp only [Option.map_some', Option.some.injEq] at hm'
      subst hm'
      refine ⟨?_, m, rfl, (ConcreteMetric.reset_kind m).symm⟩
      rw [ConcreteMetric.reset_kind]
      rfl

/-- C8. The text one `logMetrics()` call leaves in the file is the text that
was there, followed by the timestamp prefix, then for each node of the map, in
iteration order, the entry `"<name>" <valueAsText> ` rendered from the value
the metric had before the call, then one newline. The nodes are exactly the
live metrics, each once: their names are pairwise distinct, and a pair of a
name and a metric is a node exactly when the lookup of the name gives that
metric. -/
theorem logMetrics_output (mgr : Manager) (localtime : Int → Tm) (now : Int) :
    (mgr.logMetrics localtime now)._file
      = mgr._file ++ (timestamp localtime now
          ++ String.join (mgr._metrics.nodes.map
              (fun p => "\"" ++ p.1 ++ "\"" ++ " " ++ ConcreteMetric.getValueAsString p.2 ++ " "))
          ++ "\n")
    ∧ (mgr._metrics.nodes.map Prod.fst).Nodup
    ∧ (∀ name m, (name, m) ∈ mgr._metrics.nodes ↔ mgr._metrics.find name = some m) := by
  refine ⟨Manager.file_logMetrics mgr localtime now, mgr._metrics.unique, ?_⟩
  intro name m
  exact ⟨findNode_of_mem mgr._metrics.unique, findNode_mem⟩

theorem String.join_append_eq (l₁ l₂ : List String) :
    String.join (l₁ ++ l₂) = String.join l₁ ++ String.join l₂ := by
  apply String.ext
  simp [String.data_join, String.data_append]

theorem Manager.logMetrics_entry (mgr : Manager) (localtime : Int → Tm) (now : Int)
    (n : String) (m : Metric) (h : mgr._metrics.find n = some m) :
    ∃ front back : List (String × Metric),
      mgr._metrics.nodes = front ++ (n, m) :: back
      ∧ (mgr.logMetrics localtime now)._file
          = mgr._file ++ (timestamp localtime now ++ String.join (front.map entryText)
              ++ entryText (n, m) ++ String.join (back.map entryText) ++ "\n") := by
  obtain ⟨front, back, hfb⟩ := List.append_of_mem (findNode_mem h)
  refine ⟨front, back, hfb, ?_⟩
  rw [Manager.file_logMetrics, hfb, List.map_append, List.map_cons, String.join_append_eq,
    String.join_cons_eq]
  simp only [String.append_assoc]

theorem CInt.zero_add (d : CInt) : CInt.add CInt.zero d = d := by
  apply Subtype.ext
  have h1 := d.property.1
  have h2 := d.property.2
  show wrap32 (0 + d.val) = d.val
  unfold wrap32
  omega

theorem Manager.find_create_set (mgr : Manager) (n : String) (v : CInt) :
    ((mgr.createMetric Kind.Integer n).setValue n (Value.int v))._metrics.find n
      = some { _name := n, _value := Value.int v } := by
  have h1 : (mgr.createMetric Kind.Integer n)._metrics.find n
      = some (ConcreteMetric.new Kind.Integer n) := by
    simp [Manager.createMetric, MetricsMap.find_assign]
  have h2 : ConcreteMetric.set (ConcreteMetric.new Kind.Integer n) (Value.int v)
      = some { _name := n, _value := Value.int v } := rfl
  rw [Manager.setValue_of_set h1 h2]
  simp [MetricsMap.find_modify, h1]

theorem Manager.find_log_add (mgr : Manager) (localtime : Int → Tm) (now : Int)
    (n : String) (v d : CInt)
    (h : mgr._metrics.find n = some { _name := n, _value := Value.int v }) :
    ((mgr.logMetrics localtime now).addValue n (Value.int d))._metrics.find n
      = some { _name := n, _value := Value.int d } := by
  have h1 : (mgr.logMetrics localtime now)._metrics.find n
      = some { _name := n, _value := Value.int CInt.zero } := by
    rw [Manager.find_logMetrics, h]
    rfl
  have h2 : ConcreteMetric.add { _name := n, _value := Value.int CInt.zero } (Value.int d)
      = some { _name := n, _value := Value.int d } := by
    simp [ConcreteMetric.add, CInt.zero_add]
  rw [Manager.addValue_of_add h1 h2]
  simp [MetricsMap.find_modify, h1]

/-- C9. Starting from any registry, after `createMetric<int>(n)` and
`setValue<int>(n, v)`, the line appended by `logMetrics()` holds, between the
entries of the other metrics, the entry `"n" v ` with `v` in plain decimal;
after a following `addValue<int>(n, d)` the line appended by the next
`logMetrics()` holds the entry `"n" d `: the first cycle reset the value to
zero, so `d` alone is shown. -/
theorem set_log_add_log (mgr : Manager) (n : String) (v d : CInt)
    (localtime : Int → Tm) (now now2 : Int) :
    (∃ front back : List (String × Metric),
      (((mgr.createMetric Kind.Integer n).setValue n (Value.int v)).logMetrics localtime now)._file
        = ((mgr.createMetric Kind.Integer n).setValue n (Value.int v))._file
          ++ (timestamp localtime now ++ String.join (front.map entryText)
              ++ ("\"" ++ n ++ "\"" ++ " " ++ intText v.val ++ " ")
              ++ String.join (back.map entryText) ++ "\n"))
    ∧ (∃ front back : List (String × Metric),
      (((((mgr.createMetric Kind.Integer n).setValue n (Value.int v)).logMetrics localtime now).addValue
          n (Value.int d)).logMetrics localtime now2)._file
        = ((((mgr.createMetric Kind.Integer n).setValue n (Value.int v)).logMetrics localtime now).addValue
            n (Value.int d))._file
          ++ (timestamp localtime now2 ++ String.join (front.map entryText)
              ++ ("\"" ++ n ++ "\"" ++ " " ++ intText d.val ++ " ")
              ++ String.join (back.map entryText) ++ "\n")) := by
  have h1 := Manager.find_create_set mgr n v
  have h2 := Manager.find_log_add _ localtime now n v d h1
  constructor
  · obtain ⟨front, back, _, hf⟩ := Manager.logMetrics_entry _ localtime now n _ h1
    exact ⟨front, back, hf⟩
  · obtain ⟨front, back, _, hf⟩ := Manager.logMetrics_entry _ localtime now2 n _ h2
    exact ⟨front, back, hf⟩

/-- C10. After `deleteMetric(n)`, a following `addValue<T>(n, v)` returns the
registry unchanged, with `n` still absent, and the line that the next
`logMetrics()` appends consists of the timestamp, the entries of the nodes of
that registry, none of which has the key `n`, and the newline. -/
theorem delete_then_addValue (mgr : Manager) (n : String) (value : Value)
    (localtime : Int → Tm) (now : Int) :
    (mgr.deleteMetric n).addValue n value = mgr.deleteMetric n
    ∧ ((mgr.deleteMetric n).addValue n value)._metrics.find n = none
    ∧ (((mgr.deleteMetric n).addValue n value).logMetrics localtime now)._file
        = ((mgr.deleteMetric n).addValue n value)._file
          ++ (timestamp localtime now
              ++ String.join (((mgr.deleteMetric n).addValue n value)._metrics.nodes.map
                  (fun p => "\"" ++ p.1 ++ "\"" ++ " " ++ ConcreteMetric.getValueAsString p.2 ++ " "))
              ++ "\n")
    ∧ (∀ p ∈ ((mgr.deleteMetric n).addValue n value)._metrics.nodes, p.1 ≠ n) := by
  have hnone : (mgr.deleteMetric n)._metrics.find n = none := by
    simp [Manager.deleteMetric, MetricsMap.find_erase]
  have hsame : (mgr.deleteMetric n).addValue n value = mgr.deleteMetric n := by
    unfold Manager.addValue
    rw [hnone]
  rw [hsame]
  refine ⟨rfl, hnone, Manager.file_logMetrics _ localtime now, ?_⟩
  intro p hp e
  have hmem0 : p.1 ∈ (mgr.deleteMetric n)._metrics.names := List.mem_map_of_mem Prod.fst hp
  have hmem : n ∈ (mgr.deleteMetric n)._metrics.names := by
    rw [e] at hmem0
    exact hmem0
  exact ((MetricsMap.find_eq_none_iff _ n).mp hnone) hmem

/-! ## Rendering of values -/

/-- C11, as the claim states it, fails: a `double` metric set to the literal
`0.965` does not render as `0.97`. -/
theorem literal_0965_not_097 :
    ((demoManager.setValue "CPU" (Value.double (Double.ofRatio 965 1000)))._metrics.find "CPU").map
        ConcreteMetric.getValueAsString ≠ some "0.97" := by
  decide

/-- C11, amended. A `double` metric set to the literal `0.965` holds the double
nearest to it, which lies below `0.965`, and renders as `0.96`; an `int` metric
set to `42` renders as `42`. -/
theorem literal_rendering :
    ((demoManager.setValue "CPU" (Value.double (Double.ofRatio 965 1000)))._metrics.find "CPU").map
        ConcreteMetric.getValueAsString = some "0.96"
    ∧ Double.ofRatio 965 1000 = Double.finite false (8691947280825057 * 2 ^ 1021)
    ∧ 8691947280825057 * 2 ^ 1021 * 1000 < 965 * 2 ^ 1074
    ∧ ((demoManager.setValue "HTTP requests RPS" (Value.int (CInt.ofInt 42)))._metrics.find
        "HTTP requests RPS").map ConcreteMetric.getValueAsString = some "42" := by
  refine ⟨by decide, by decide, by decide, by decide⟩

/-! ## Construction -/

/-- C13. The constructor `Manager(name)` fails, with the error of the thrown
`runtime_error`, exactly when opening the file in append mode did not succeed;
when opening succeeds it returns a registry with no metrics, whose file holds
the text that was there; on failure it returns no registry. -/
theorem Manager_new_spec (fopen : String → Option String) (name : String) :
    ((∃ e, Manager.new fopen name = Except.error e) ↔ fopen name = none)
    ∧ (fopen name = none → Manager.new fopen name = Except.error "Cannot open file!")
    ∧ (∀ content, fopen name = some content →
        ∃ mgr, Manager.new fopen name = Except.ok mgr
          ∧ mgr._file = content ∧ mgr._metrics.names = []
          ∧ ∀ n, mgr._metrics.find n = none)
    ∧ (fopen name = none → ∀ mgr, Manager.new fopen name ≠ Except.ok mgr) := by
  unfold Manager.new
  cases h : fopen name with
  | none =>
    refine ⟨⟨fun _ => rfl, fun _ => ⟨_, rfl⟩⟩, fun _ => rfl, ?_, ?_⟩
    · intro content hc
      cases hc
    · intro _ mgr hm
      cases hm
  | some content =>
    refine ⟨⟨?_, ?_⟩, ?_, ?_, ?_⟩
    · rintro ⟨e, he⟩
      cases he
    · intro hc
      cases hc
    · intro hc
      cases hc
    · intro c hc
      cases hc
      exact ⟨_, rfl, rfl, rfl, fun _ => rfl⟩
    · intro hc
      cases hc

/-! ## The kind of a live metric -/

theorem ConcreteMetric.set_kind {m m' : Metric} {value : Value}
    (h : ConcreteMetric.set m value = some m') : m'.kind = m.kind := by
  unfold ConcreteMetric.set at h
  by_cases hk : m.kind = value.kind
  · rw [if_pos hk] at h
    cases h
    exact hk.symm
  · rw [if_neg hk] at h
    cases h

theorem Manager.addValue_keeps_kind (mgr : Manager) (n : String) (m : Metric)
    (h : mgr._metrics.find n = some m) (name : String) (value : Value) :
    ∃ m', (mgr.addValue name value)._metrics.find n = some m' ∧ m'.kind = m.kind := by
  unfold Manager.addValue
  cases hf : mgr._metrics.find name with
  | none => exact ⟨m, h, rfl⟩
  | some tm =>
    simp only
    cases ha : ConcreteMetric.add tm value with
    | none => exact ⟨m, h, rfl⟩
    | some x =>
      simp only
      rw [MetricsMap.find_modify]
      by_cases hn : n = name
      · subst hn
        rw [h] at hf
        cases hf
        rw [if_pos rfl, h]
        exact ⟨x, rfl, (ConcreteMetric.add_kind ha).1⟩
      · rw [if_neg hn]
        exact ⟨m, h, rfl⟩

theorem Manager.setValue_keeps_kind (mgr : Manager) (n : String) (m : Metric)
    (h : mgr._metrics.find n = some m) (name : String) (value : Value) :
    ∃ m', (mgr.setValue name value)._metrics.find n = some m' ∧ m'.kind = m.kind := by
  unfold Manager.setValue
  cases hf : mgr._metrics.find name with
  | none => exact ⟨m, h, rfl⟩
  | some tm =>
    simp only
    cases ha : ConcreteMetric.set tm value with
    | none => exact ⟨m, h, rfl⟩
    | some x =>
      simp only
      rw [MetricsMap.find_modify]
      by_cases hn : n = name
      · subst hn
        rw [h] at hf
        cases hf
        rw [if_pos rfl, h]
        exact ⟨x, rfl, ConcreteMetric.set_kind ha⟩
      · rw [if_neg hn]
        exact ⟨m, h, rfl⟩

/-- C14. For a name `n` present in the registry, the kind of its metric is the
same after any `addValue` or `setValue` (any name, any value), after
`logMetrics`, and after `createMetric` or `deleteMetric` on another name (these
two leave the metric of `n` as it is). A `createMetric<T>(n)` gives `n` the
kind `T`, and `deleteMetric(n)` removes `n`. -/
theorem kind_fixed (mgr : Manager) (n : String) (m : Metric)
    (h : mgr._metrics.find n = some m) :
    (∀ name value, ∃ m', (mgr.addValue name value)._metrics.find n = some m' ∧ m'.kind = m.kind)
    ∧ (∀ name value, ∃ m', (mgr.setValue name value)._metrics.find n = some m' ∧ m'.kind = m.kind)
    ∧ (∀ localtime now,
        ∃ m', (mgr.logMetrics localtime now)._metrics.find n = some m' ∧ m'.kind = m.kind)
    ∧ (∀ T other, other ≠ n → (mgr.createMetric T other)._metrics.find n = some m)
    ∧ (∀ other, other ≠ n → (mgr.deleteMetric other)._metrics.find n = some m)
    ∧ (∀ T, ∃ m', (mgr.createMetric T n)._metrics.find n = some m' ∧ m'.kind = T)
    ∧ (mgr.deleteMetric n)._metrics.find n = none := by
  refine ⟨Manager.addValue_keeps_kind mgr n m h, Manager.setValue_keeps_kind mgr n m h,
    ?_, ?_, ?_, ?_, ?_⟩
  · intro localtime now
    refine ⟨ConcreteMetric.reset m, ?_, ConcreteMetric.reset_kind m⟩
    rw [Manager.find_logMetrics, h]
    rfl
  · intro T other ho
    have ho2 : ¬ n = other := fun e => ho e.symm
    simp [Manager.createMetric, MetricsMap.find_assign, ho2, h]
  · intro other ho
    have ho2 : ¬ n = other := fun e => ho e.symm
    simp [Manager.deleteMetric, MetricsMap.find_erase, ho2, h]
  · intro T
    refine ⟨ConcreteMetric.new T n, ?_, ?_⟩
    · simp [Manager.createMetric, MetricsMap.find_assign]
    · cases T <;> rfl
  · simp [Manager.deleteMetric, MetricsMap.find_erase]

/-- Instance of C14 for the metric `CPU` of `main`. -/
theorem kind_fixed_witness :
    (∀ name value, ∃ m', (demoManager.addValue name value)._metrics.find "CPU" = some m'
        ∧ m'.kind = Kind.Float)
    ∧ (demoManager.deleteMetric "CPU")._metrics.find "CPU" = none :=
  have h := kind_fixed demoManager "CPU" (ConcreteMetric.new Kind.Float "CPU") (by decide)
  ⟨h.1, h.2.2.2.2.2.2⟩

/-! ## Two results on repeated calls -/

theorem MetricsMap.modify_modify (mp : MetricsMap) (n : String) (a b : Metric) :
    (mp.modify n (fun _ => a)).modify n (fun _ => b) = mp.modify n (fun _ => b) := by
  apply MetricsMap.ext_nodes
  unfold MetricsMap.modify
  simp only
  rw [List.map_map]
  apply List.map_congr_left
  intro p _
  simp only [Function.comp]
  by_cases hp : p.1 = n
  · simp [hp]
  · simp [hp]

theorem CInt.add_add (x a b : CInt) :
    CInt.add (CInt.add x a) b = CInt.add x (CInt.add a b) := by
  apply Subtype.ext
  show wrap32 (wrap32 (x.val + a.val) + b.val) = wrap32 (x.val + wrap32 (a.val + b.val))
  unfold wrap32
  omega

theorem CInt.add_comm (a b : CInt) : CInt.add a b = CInt.add b a := by
  apply Subtype.ext
  show wrap32 (a.val + b.val) = wrap32 (b.val + a.val)
  rw [Int.add_comm]

theorem Manager.addValue_int_twice (mgr : Manager) (n : String) (a b : CInt) :
    (mgr.addValue n (Value.int a)).addValue n (Value.int b)
      = mgr.addValue n (Value.int (CInt.add a b)) := by
  cases hf : mgr._metrics.find n with
  | none =>
    have h1 : ∀ v, mgr.addValue n v = mgr := by
      intro v
      unfold Manager.addValue
      rw [hf]
    rw [h1, h1, h1]
  | some m =>
    obtain ⟨nm, v⟩ := m
    cases v with
    | double x =>
      have h1 : ∀ c, mgr.addValue n (Value.int c) = mgr := by
        intro c
        unfold Manager.addValue
        rw [hf]
        rfl
      rw [h1, h1, h1]
    | int x =>
      have e1 : ∀ c, ConcreteMetric.add { _name := nm, _value := Value.int x } (Value.int c)
          = some { _name := nm, _value := Value.int (CInt.add x c) } := fun _ => rfl
      rw [Manager.addValue_of_add hf (e1 a), Manager.addValue_of_add hf (e1 (CInt.add a b))]
      have hf2 : (mgr._metrics.modify n
            (fun _ => { _name := nm, _value := Value.int (CInt.add x a) })).find n
          = some { _name := nm, _value := Value.int (CInt.add x a) } := by
        simp [MetricsMap.find_modify, hf]
      have e2 : ConcreteMetric.add { _name := nm, _value := Value.int (CInt.add x a) } (Value.int b)
          = some { _name := nm, _value := Value.int (CInt.add x (CInt.add a b)) } := by
        show some _ = some _
        rw [CInt.add_add]
      rw [Manager.addValue_of_add hf2 e2]
      simp only [MetricsMap.modify_modify]

/-- C20. For every registry, name `n` and `int` values `a` and `b`,
`addValue<int>(n, a)` then `addValue<int>(n, b)` gives the same registry as the
two calls in the other order and as the single call `addValue<int>(n, a + b)`
with the sum reduced into the 32-bit two's-complement range, whether `n` is
absent, a `double` metric or an `int` metric. -/
theorem addValue_int_commutes (mgr : Manager) (n : String) (a b : CInt) :
    (mgr.addValue n (Value.int a)).addValue n (Value.int b)
      = (mgr.addValue n (Value.int b)).addValue n (Value.int a)
    ∧ (mgr.addValue n (Value.int a)).addValue n (Value.int b)
      = mgr.addValue n (Value.int (CInt.add a b))
    ∧ (CInt.add a b).val = wrap32 (a.val + b.val) := by
  refine ⟨?_, Manager.addValue_int_twice mgr n a b, rfl⟩
  rw [Manager.addValue_int_twice, Manager.addValue_int_twice, CInt.add_comm]

theorem ConcreteMetric.reset_reset (m : Metric) :
    ConcreteMetric.reset (ConcreteMetric.reset m) = ConcreteMetric.reset m := by
  obtain ⟨nm, v⟩ := m
  cases v <;> rfl

theorem ConcreteMetric.getValueAsString_reset (m : Metric) :
    ConcreteMetric.getValueAsString (ConcreteMetric.reset m)
      = (match m.kind with
         | Kind.Integer => "0"
         | Kind.Float => "0.00") := by
  obtain ⟨nm, v⟩ := m
  cases v with
  | int x =>
    show intText 0 = "0"
    decide
  | double x =>
    show Double.toFixed2 Double.zero = "0.00"
    decide

theorem Manager.nodes_logMetrics (mgr : Manager) (localtime : Int → Tm) (now : Int) :
    (mgr.logMetrics localtime now)._metrics.nodes
      = mgr._metrics.nodes.map (fun p => (p.1, ConcreteMetric.reset p.2)) := by
  unfold Manager.logMetrics
  simp only
  rw [logLoop_nodes]

/-- C19. Two consecutive `logMetrics()` calls append two lines whose entries
are for the same nodes in the same order; in the second line the value text of
every entry is `0` for an `int` metric and `0.00` for a `double` metric; the
map after the second call equals the map after the first. -/
theorem logMetrics_twice (mgr : Manager) (localtime : Int → Tm) (now now2 : Int) :
    ((mgr.logMetrics localtime now).logMetrics localtime now2)._metrics
      = (mgr.logMetrics localtime now)._metrics
    ∧ (mgr.logMetrics localtime now)._file
      = mgr._file ++ (timestamp localtime now
          ++ String.join (mgr._metrics.nodes.map
              (fun p => "\"" ++ p.1 ++ "\"" ++ " " ++ ConcreteMetric.getValueAsString p.2 ++ " "))
          ++ "\n")
    ∧ ((mgr.logMetrics localtime now).logMetrics localtime now2)._file
      = (mgr.logMetrics localtime now)._file ++ (timestamp localtime now2
          ++ String.join (mgr._metrics.nodes.map
              (fun p => "\"" ++ p.1 ++ "\"" ++ " "
                ++ (match p.2.kind with
                    | Kind.Integer => "0"
                    | Kind.Float => "0.00") ++ " "))
          ++ "\n") := by
  refine ⟨?_, Manager.file_logMetrics mgr localtime now, ?_⟩
  · apply MetricsMap.ext_nodes
    rw [Manager.nodes_logMetrics, Manager.nodes_logMetrics, List.map_map]
    conv => rhs; rw [← List.map_id (mgr._metrics.nodes.map _)]
    rw [List.map_map]
    apply List.map_congr_left
    intro p _
    simp only [Function.comp, id, ConcreteMetric.reset_reset]
  · have e : List.map (entryText ∘ fun p => (p.1, ConcreteMetric.reset p.2)) mgr._metrics.nodes
        = mgr._metrics.nodes.map
            (fun p => "\"" ++ p.1 ++ "\"" ++ " "
              ++ (match p.2.kind with
                  | Kind.Integer => "0"
                  | Kind.Float => "0.00") ++ " ") := by
      apply List.map_congr_left
      intro p _
      simp only [Function.comp, entryText, ConcreteMetric.getValueAsString_reset]
    rw [Manager.file_logMetrics, Manager.nodes_logMetrics, List.map_map, e]

/-! ## The characters of the rendered texts -/

theorem digitChar_isDigit (k : Nat) (h : k < 10) : (Nat.digitChar k).isDigit = true := by
  interval_cases k <;> rfl

theorem toDigitsCore_isDigit (fuel : Nat) : ∀ (n : Nat) (ds : List Char),
    (∀ c ∈ ds, c.isDigit = true) → ∀ c ∈ Nat.toDigitsCore 10 fuel n ds, c.isDigit = true := by
  induction fuel with
  | zero =>
    intro n ds h c hc
    exact h c hc
  | succ f ih =>
    intro n ds h c hc
    have hd : ∀ x ∈ Nat.digitChar (n % 10) :: ds, x.isDigit = true := by
      intro x hx
      rcases List.mem_cons.mp hx with e | e
      · rw [e]
        exact digitChar_isDigit _ (Nat.mod_lt _ (by decide))
      · exact h x e
    simp only [Nat.toDigitsCore] at hc
    by_cases h0 : n / 10 = 0
    · rw [if_pos h0] at hc
      exact hd c hc
    · rw [if_neg h0] at hc
      exact ih _ _ hd c hc

theorem repr_isDigit (n : Nat) : ∀ c ∈ (Nat.repr n).data, c.isDigit = true := by
  intro c hc
  exact toDigitsCore_isDigit (n + 1) n [] (fun _ h => absurd h (List.not_mem_nil _)) c hc

theorem toDigitsCore_ne_nil (fuel : Nat) : ∀ (n : Nat) (ds : List Char),
    ds ≠ [] → Nat.toDigitsCore 10 fuel n ds ≠ [] := by
  induction fuel with
  | zero =>
    intro n ds h
    exact h
  | succ f ih =>
    intro n ds _
    simp only [Nat.toDigitsCore]
    by_cases h0 : n / 10 = 0
    · rw [if_pos h0]
      exact List.cons_ne_nil _ _
    · rw [if_neg h0]
      exact ih _ _ (List.cons_ne_nil _ _)

theorem repr_ne_nil (n : Nat) : (Nat.repr n).data ≠ [] := by
  show Nat.toDigitsCore 10 (n + 1) n [] ≠ []
  simp only [Nat.toDigitsCore]
  by_cases h0 : n / 10 = 0
  · rw [if_pos h0]
    exact List.cons_ne_nil _ _
  · rw [if_neg h0]
    exact toDigitsCore_ne_nil _ _ _ (List.cons_ne_nil _ _)

theorem repr_lt_ten (n : Nat) (h : n < 10) : (Nat.repr n).data = [Nat.digitChar n] := by
  show Nat.toDigitsCore 10 (n + 1) n [] = [Nat.digitChar n]
  simp only [Nat.toDigitsCore]
  rw [if_pos (Nat.div_eq_of_lt h), Nat.mod_eq_of_lt h]

theorem toFixed2_data (neg : Bool) (mag : Nat) :
    (Double.toFixed2 (Double.finite neg mag)).data
      = (if neg then ['-'] else [])
        ++ (Nat.repr (roundHalfEven (mag * 100) (2 ^ 1074) / 100)).data
        ++ ['.', Nat.digitChar (roundHalfEven (mag * 100) (2 ^ 1074) / 10 % 10),
            Nat.digitChar (roundHalfEven (mag * 100) (2 ^ 1074) % 10)] := by
  unfold Double.toFixed2 digitText
  simp only [String.data_append]
  rw [repr_lt_ten _ (Nat.mod_lt _ (by decide)), repr_lt_ten _ (Nat.mod_lt _ (by decide))]
  cases neg <;> simp

/-- C15, as the claim states it, fails: a `double` metric can hold infinity,
stored by `setValue<double>` or reached by `addValue<double>` from the largest
finite double, and it renders as `inf`, a text without a decimal point. -/
theorem infinity_rendering :
    ((demoManager.setValue "CPU" (Value.double (Double.inf false)))._metrics.find "CPU").map
        ConcreteMetric.getValueAsString = some "inf"
    ∧ (((demoManager.setValue "CPU"
          (Value.double (Double.finite false (9007199254740991 * 2 ^ 2045)))).addValue "CPU"
          (Value.double (Double.finite false (9007199254740991 * 2 ^ 2045))))._metrics.find "CPU").map
        ConcreteMetric.getValueAsString = some "inf"
    ∧ '.' ∉ "inf".data := by
  refine ⟨by decide, by decide, by decide⟩

/-- C15, amended. For every finite double held by a `double` metric, the
rendered text is an optional minus sign, the decimal digits of the integer
part, a point and exactly two digits, with no other character (fixed notation,
no exponent); the number of hundredths `h` it shows is the integer nearest to
a hundred times the exact value (which is `mag * 2^(-1074)`), and on a tie it
is the even one, so `h` is determined by the value. -/
theorem fixed_rendering (nm : String) (neg : Bool) (mag : Nat) :
    ∃ (h : Nat) (ip : List Char) (d1 d2 : Char),
      (ConcreteMetric.getValueAsString
          { _name := nm, _value := Value.double (Double.finite neg mag) }).data
        = (if neg then ['-'] else []) ++ ip ++ ['.', d1, d2]
      ∧ ip = (Nat.repr (h / 100)).data ∧ ip ≠ [] ∧ (∀ c ∈ ip, c.isDigit = true)
      ∧ d1 = Nat.digitChar (h / 10 % 10) ∧ d2 = Nat.digitChar (h % 10)
      ∧ d1.isDigit = true ∧ d2.isDigit = true
      ∧ 2 * (h * 2 ^ 1074) ≤ 2 * (mag * 100) + 2 ^ 1074
      ∧ 2 * (mag * 100) ≤ 2 * (h * 2 ^ 1074) + 2 ^ 1074
      ∧ ((2 * (h * 2 ^ 1074) = 2 * (mag * 100) + 2 ^ 1074
          ∨ 2 * (mag * 100) = 2 * (h * 2 ^ 1074) + 2 ^ 1074) → h % 2 = 0)
      ∧ (∀ h', IsNearestEven (mag * 100) (2 ^ 1074) (h' * 2 ^ 1074) → h' = h) := by
  have hpos : 0 < 2 ^ 1074 := Nat.pos_pow_of_pos 1074 (by decide)
  have hn := roundHalfEven_nearest (mag * 100) (2 ^ 1074) hpos
  refine ⟨roundHalfEven (mag * 100) (2 ^ 1074), _, _, _, toFixed2_data neg mag, rfl,
    repr_ne_nil _, repr_isDigit _, rfl, rfl,
    digitChar_isDigit _ (Nat.mod_lt _ (by decide)), digitChar_isDigit _ (Nat.mod_lt _ (by decide)),
    hn.1, hn.2, roundHalfEven_tie (mag * 100) (2 ^ 1074) hpos, ?_⟩
  intro h' hh'
  have e := isNearestEven_unique hpos hh' (roundHalfEven_isNearestEven (mag * 100) (2 ^ 1074) hpos)
  exact Nat.eq_of_mul_eq_mul_right hpos e

/-- Instances of the rounding of C15: `0.125` and `0.375` lie half-way between
two hundredths and render with the even one, `0.12` and `0.38`; negative
values keep their sign. -/
theorem fixed_rendering_examples :
    ConcreteMetric.getValueAsString
        { _name := "CPU", _value := Value.double (Double.ofRatio 125 1000) } = "0.12"
    ∧ ConcreteMetric.getValueAsString
        { _name := "CPU", _value := Value.double (Double.ofRatio 375 1000) } = "0.38"
    ∧ ConcreteMetric.getValueAsString
        { _name := "CPU", _value := Value.double (Double.ofRatio 112 100) } = "1.12"
    ∧ ConcreteMetric.getValueAsString
        { _name := "CPU", _value := Value.double (Double.finite true (5 * 2 ^ 1073)) } = "-2.50" := by
  refine ⟨by decide, by decide, by decide, by decide⟩

/-! ## The millisecond field -/

theorem setw3_lt_1000 : ∀ k : Fin 1000,
    setw3 (k.val : Int)
      = String.mk [Nat.digitChar (k.val / 100), Nat.digitChar (k.val / 10 % 10),
          Nat.digitChar (k.val % 10)] := by
  decide

theorem msCount_of_nonneg (now : Int) (h : 0 ≤ now) :
    msCount now = ((now.toNat % 1000000000 / 1000000 : Nat) : Int) := by
  unfold msCount
  have h1 : Int.tdiv now 1000000 = now / 1000000 := Int.tdiv_eq_ediv h (by decide)
  have h2 : 0 ≤ now / 1000000 := Int.ediv_nonneg h (by decide)
  rw [h1, Int.tmod_eq_emod h2 (by decide)]
  omega

/-- C16, as the claim states it, fails for an instant before the epoch: one
millisecond before it, the code writes the millisecond field `0-1` after the
seconds of the epoch itself. -/
theorem timestamp_before_epoch :
    timestamp firstDayTm (-1000000) = "1970-01-01 00:00:00.0-1 " := by
  decide

/-- C16, amended. For every instant at or after the epoch, the timestamp is
the text of `put_time` with the format `%Y-%m-%d %H:%M:%S.` for the whole
seconds of the instant, followed by exactly three decimal digits and one
space; the three digits are the zero-padded number of whole milliseconds
elapsed within the current second. -/
theorem timestamp_millis (localtime : Int → Tm) (now : Int) (h : 0 ≤ now) :
    ∃ ms : Nat, ms = now.toNat % 1000000000 / 1000000 ∧ ms < 1000
      ∧ timestamp localtime now
          = putTime (localtime (now / 1000000000))
            ++ String.mk [Nat.digitChar (ms / 100), Nat.digitChar (ms / 10 % 10),
                Nat.digitChar (ms % 10)]
            ++ " "
      ∧ (Nat.digitChar (ms / 100)).isDigit = true
      ∧ (Nat.digitChar (ms / 10 % 10)).isDigit = true
      ∧ (Nat.digitChar (ms % 10)).isDigit = true := by
  have hlt : now.toNat % 1000000000 / 1000000 < 1000 := by omega
  refine ⟨now.toNat % 1000000000 / 1000000, rfl, hlt, ?_,
    digitChar_isDigit _ (by omega), digitChar_isDigit _ (Nat.mod_lt _ (by decide)),
    digitChar_isDigit _ (Nat.mod_lt _ (by decide))⟩
  unfold timestamp to_time_t
  rw [msCount_of_nonneg now h, Int.tdiv_eq_ediv h (by decide)]
  rw [setw3_lt_1000 ⟨now.toNat % 1000000000 / 1000000, hlt⟩]

/-- Instance of C16: 1.23456789 seconds after the epoch the field is `234`. -/
theorem timestamp_millis_witness :
    ∃ ms : Nat, ms = 234 ∧ timestamp firstDayTm 1234567890 = "1970-01-01 00:00:01.234 " :=
  match timestamp_millis firstDayTm 1234567890 (by decide) with
  | ⟨ms, h1, _, h2, _⟩ => ⟨ms, h1.trans (by decide), h2.trans (by subst h1; decide)⟩

/-! ## One line per log cycle -/

theorem nl_not_mem_append (a b : String) (ha : Char.ofNat 10 ∉ a.data)
    (hb : Char.ofNat 10 ∉ b.data) : Char.ofNat 10 ∉ (a ++ b).data := by
  rw [String.data_append, List.mem_append]
  exact fun h => h.elim ha hb

theorem nl_not_mem_repr (n : Nat) : Char.ofNat 10 ∉ (Nat.repr n).data := by
  intro h
  have := repr_isDigit n _ h
  exact absurd this (by decide)

theorem nl_not_mem_intText (v : Int) : Char.ofNat 10 ∉ (intText v).data := by
  unfold intText
  split
  · exact nl_not_mem_append _ _ (by decide) (nl_not_mem_repr _)
  · exact nl_not_mem_repr _

theorem nl_not_mem_pad2 (n : Nat) : Char.ofNat 10 ∉ (pad2 n).data := by
  unfold pad2
  split
  · exact nl_not_mem_append _ _ (by decide) (nl_not_mem_repr _)
  · exact nl_not_mem_repr _

theorem nl_not_mem_putTime (tm : Tm) : Char.ofNat 10 ∉ (putTime tm).data := by
  unfold putTime
  apply nl_not_mem_append _ _ _ (by decide)
  apply nl_not_mem_append _ _ _ (nl_not_mem_pad2 _)
  apply nl_not_mem_append _ _ _ (by decide)
  apply nl_not_mem_append _ _ _ (nl_not_mem_pad2 _)
  apply nl_not_mem_append _ _ _ (by decide)
  apply nl_not_mem_append _ _ _ (nl_not_mem_pad2 _)
  apply nl_not_mem_append _ _ _ (by decide)
  apply nl_not_mem_append _ _ _ (nl_not_mem_pad2 _)
  apply nl_not_mem_append _ _ _ (by decide)
  apply nl_not_mem_append _ _ _ (nl_not_mem_pad2 _)
  apply nl_not_mem_append _ _ _ (by decide)
  exact nl_not_mem_intText _

theorem nl_not_mem_setw3 (v : Int) : Char.ofNat 10 ∉ (setw3 v).data := by
  unfold setw3
  apply nl_not_mem_append _ _ _ (nl_not_mem_intText v)
  intro h
  have := List.eq_of_mem_replicate h
  exact absurd this (by decide)

theorem nl_not_mem_timestamp (localtime : Int → Tm) (now : Int) :
    Char.ofNat 10 ∉ (timestamp localtime now).data := by
  unfold timestamp
  exact nl_not_mem_append _ _
    (nl_not_mem_append _ _ (nl_not_mem_putTime _) (nl_not_mem_setw3 _)) (by decide)

theorem nl_not_mem_toFixed2 (v : Double) : Char.ofNat 10 ∉ (Double.toFixed2 v).data := by
  cases v with
  | nan => decide
  | inf neg => cases neg <;> decide
  | finite neg mag =>
    rw [toFixed2_data]
    intro h
    rcases List.mem_append.mp h with h1 | h1
    · rcases List.mem_append.mp h1 with h2 | h2
      · cases neg
        · simp at h2
        · exact absurd h2 (by decide)
      · exact nl_not_mem_repr _ h2
    · rcases List.mem_cons.mp h1 with e | h2
      · exact absurd e (by decide)
      · rcases List.mem_cons.mp h2 with e | h3
        · have := digitChar_isDigit
            (roundHalfEven (mag * 100) (2 ^ 1074) / 10 % 10) (Nat.mod_lt _ (by decide))
          rw [← e] at this
          exact absurd this (by decide)
        · rcases List.mem_cons.mp h3 with e | h4
          · have := digitChar_isDigit
              (roundHalfEven (mag * 100) (2 ^ 1074) % 10) (Nat.mod_lt _ (by decide))
            rw [← e] at this
            exact absurd this (by decide)
          · exact absurd h4 (List.not_mem_nil _)

theorem nl_not_mem_value (m : Metric) :
    Char.ofNat 10 ∉ (ConcreteMetric.getValueAsString m).data := by
  obtain ⟨nm, v⟩ := m
  cases v with
  | int x => exact nl_not_mem_intText _
  | double x => exact nl_not_mem_toFixed2 _

theorem nl_not_mem_entry (p : String × Metric) (h : Char.ofNat 10 ∉ p.1.data) :
    Char.ofNat 10 ∉ (entryText p).data := by
  unfold entryText
  apply nl_not_mem_append _ _ _ (by decide)
  apply nl_not_mem_append _ _ _ (nl_not_mem_value _)
  apply nl_not_mem_append _ _ _ (by decide)
  apply nl_not_mem_append _ _ _ (by decide)
  exact nl_not_mem_append _ _ (by decide) h

theorem nl_not_mem_join (l : List String) (h : ∀ s ∈ l, Char.ofNat 10 ∉ s.data) :
    Char.ofNat 10 ∉ (String.join l).data := by
  induction l with
  | nil => decide
  | cons a t ih =>
    rw [String.join_cons_eq]
    exact nl_not_mem_append _ _ (h a (List.mem_cons_self _ _))
      (ih (fun s hs => h s (List.mem_cons_of_mem _ hs)))

theorem nl_not_mem_entries (mgr : Manager)
    (h : ∀ n ∈ mgr._metrics.names, Char.ofNat 10 ∉ n.data) :
    Char.ofNat 10 ∉ (String.join (mgr._metrics.nodes.map entryText)).data := by
  apply nl_not_mem_join
  intro s hs
  obtain ⟨p, hp, rfl⟩ := List.mem_map.mp hs
  exact nl_not_mem_entry p (h p.1 (List.mem_map_of_mem Prod.fst hp))

theorem logLine_count (mgr : Manager) (localtime : Int → Tm) (now : Int)
    (h : ∀ n ∈ mgr._metrics.names, Char.ofNat 10 ∉ n.data) :
    (timestamp localtime now ++ String.join (mgr._metrics.nodes.map entryText) ++ "\n").data.count
        (Char.ofNat 10) = 1
    ∧ (timestamp localtime now ++ String.join (mgr._metrics.nodes.map entryText) ++ "\n").data.getLast?
        = some (Char.ofNat 10) := by
  have h0 := nl_not_mem_append _ _ (nl_not_mem_timestamp localtime now) (nl_not_mem_entries mgr h)
  constructor
  · rw [String.data_append, List.count_append, List.count_eq_zero.mpr h0]
    decide
  · rw [String.data_append]
    show (_ ++ [Char.ofNat 10]).getLast? = _
    rw [List.getLast?_append]
    rfl

theorem Manager.names_logTimes (mgr : Manager) (localtime : Int → Tm) (clock : Nat → Int)
    (k : Nat) : (mgr.logTimes localtime clock k)._metrics.names = mgr._metrics.names := by
  induction k with
  | zero => rfl
  | succ k ih =>
    show ((mgr.logTimes localtime clock k).logMetrics localtime (clock k))._metrics.names = _
    rw [Manager.names_logMetrics, ih]

/-- C12, as the claim states it, fails: with a metric whose name holds a line
break, one `logMetrics()` call on an empty file leaves two newline characters
in it. -/
theorem line_break_in_name :
    lineBreakManager._file = ""
    ∧ (lineBreakManager.logMetrics firstDayTm 0)._file
        = "1970-01-01 00:00:00.000 \"a\nb\" 0 \n"
    ∧ (lineBreakManager.logMetrics firstDayTm 0)._file.data.count (Char.ofNat 10) = 2 := by
  refine ⟨by decide, by decide, by decide⟩

/-- C12, amended. When no metric name holds a newline character, each
`logMetrics()` call appends a text with exactly one newline character, which
is its last character; hence after `k` calls on an empty file the file holds
exactly `k` newline characters, that is `k` lines. -/
theorem one_line_per_call (mgr : Manager) (localtime : Int → Tm)
    (h : ∀ n ∈ mgr._metrics.names, Char.ofNat 10 ∉ n.data) :
    (∀ now, ∃ line, (mgr.logMetrics localtime now)._file = mgr._file ++ line
        ∧ line.data.count (Char.ofNat 10) = 1
        ∧ line.data.getLast? = some (Char.ofNat 10))
    ∧ (∀ (clock : Nat → Int) (k : Nat), mgr._file = "" →
        (mgr.logTimes localtime clock k)._file.data.count (Char.ofNat 10) = k) := by
  constructor
  · intro now
    exact ⟨_, Manager.file_logMetrics mgr localtime now,
      (logLine_count mgr localtime now h).1, (logLine_count mgr localtime now h).2⟩
  · intro clock k hfile
    induction k with
    | zero =>
      show mgr._file.data.count (Char.ofNat 10) = 0
      rw [hfile]
      decide
    | succ k ih =>
      show ((mgr.logTimes localtime clock k).logMetrics localtime (clock k))._file.data.count
        (Char.ofNat 10) = k + 1
      have hn : ∀ n ∈ (mgr.logTimes localtime clock k)._metrics.names, Char.ofNat 10 ∉ n.data := by
        rw [Manager.names_logTimes]
        exact h
      rw [Manager.file_logMetrics, String.data_append, List.count_append, ih,
        (logLine_count _ localtime (clock k) hn).1]

/-- Instance of C12: three log cycles of the registry of `main`, one second apart. -/
theorem one_line_per_call_witness :
    (demoManager.logTimes firstDayTm (fun i => (i : Int) * 1000000000) 3)._file.data.count
        (Char.ofNat 10) = 3 :=
  (one_line_per_call demoManager firstDayTm (by decide)).2 (fun i => (i : Int) * 1000000000) 3
    (by decide)

/-! ## Increments from several threads -/

theorem wrap32_wrap32_add (a b : Int) : wrap32 (wrap32 a + b) = wrap32 (a + b) := by
  unfold wrap32
  omega

theorem runIncrements_int (schedule : List Nat) (nm : String) (x : CInt) :
    runIncrements schedule { _name := nm, _value := Value.int x }
      = { _name := nm, _value := Value.int (CInt.ofInt (x.val + schedule.length)) } := by
  induction schedule generalizing x with
  | nil =>
    show _ = ({ _name := nm, _value := Value.int (CInt.ofInt (x.val + ((0 : Nat) : Int))) } : Metric)
    have e : CInt.ofInt (x.val + ((0 : Nat) : Int)) = x := by
      apply Subtype.ext
      have h1 := x.property.1
      have h2 := x.property.2
      show wrap32 (x.val + ((0 : Nat) : Int)) = x.val
      unfold wrap32
      omega
    rw [e]
    rfl
  | cons t rest ih =>
    show runIncrements rest { _name := nm, _value := Value.int (CInt.add x (CInt.ofInt 1)) } = _
    rw [ih]
    have e : CInt.ofInt ((CInt.add x (CInt.ofInt 1)).val + (rest.length : Int))
        = CInt.ofInt (x.val + ((t :: rest).length : Int)) := by
      apply Subtype.ext
      show wrap32 (wrap32 (x.val + wrap32 1) + (rest.length : Int))
        = wrap32 (x.val + (((rest.length + 1 : Nat)) : Int))
      rw [wrap32_wrap32_add]
      have h1 : wrap32 1 = 1 := by decide
      rw [h1]
      congr 1
      omega
    rw [e]

theorem countP_lt_succ (N : Nat) (l : List Nat) :
    l.countP (fun x => decide (x < N + 1)) = l.countP (fun x => decide (x < N)) + l.count N := by
  induction l with
  | nil => rfl
  | cons a t ih =>
    simp only [List.countP_cons, List.count_cons, ih]
    by_cases h1 : a < N
    · have h2 : a < N + 1 := by omega
      have h3 : ¬ a = N := by omega
      simp [h1, h2, h3]
      omega
    · by_cases h3 : a = N
      · simp [h3]
        omega
      · have h2 : ¬ a < N + 1 := by omega
        simp [h1, h2, h3]

theorem countP_lt_of_counts (per : Nat) (l : List Nat) (N : Nat)
    (h : ∀ t, t < N → l.count t = per) :
    l.countP (fun x => decide (x < N)) = per * N := by
  induction N with
  | zero =>
    simp
  | succ k ih =>
    rw [countP_lt_succ, ih (fun t ht => h t (by omega)), h k (by omega)]
    ring

theorem IsSchedule.length_eq {N per : Nat} {schedule : List Nat}
    (h : IsSchedule N per schedule) : schedule.length = per * N := by
  rw [← countP_lt_of_counts per schedule N h.2]
  symm
  apply List.countP_eq_length.mpr
  intro a ha
  exact decide_eq_true (h.1 a ha)

theorem blockSchedule_isSchedule (per N : Nat) : IsSchedule N per (blockSchedule per N) := by
  induction N with
  | zero =>
    constructor
    · intro t ht
      cases ht
    · intro t ht
      omega
  | succ k ih =>
    constructor
    · intro t ht
      rcases List.mem_append.mp ht with h1 | h1
      · have := ih.1 t h1
        omega
      · have := List.eq_of_mem_replicate h1
        omega
    · intro t ht
      show (blockSchedule per k ++ List.replicate per k).count t = per
      rw [List.count_append, List.count_replicate]
      by_cases hk : t = k
      · subst hk
        have h0 : (blockSchedule per t).count t = 0 := by
          apply List.count_eq_zero.mpr
          intro hm
          have := ih.1 t hm
          omega
        simp [h0]
      · have hk2 : ¬ k = t := fun e => hk e.symm
        rw [ih.2 t (by omega)]
        simp [hk2]

/-- C18, as the claim states it, fails for a number of threads whose
increments exceed the range of `int`: with 2147484 threads of 1000 increments
each, run one thread after the other, the final value is not 2147484000 but
that number reduced modulo `2^32`, which is -2147483296. -/
theorem increments_wrap :
    IsSchedule 2147484 1000 (blockSchedule 1000 2147484)
    ∧ runIncrements (blockSchedule 1000 2147484) (ConcreteMetric.new Kind.Integer "RPS")
        = { _name := "RPS", _value := Value.int (CInt.ofInt (-2147483296)) }
    ∧ (CInt.ofInt (-2147483296)).val = -2147483296
    ∧ (-2147483296 : Int) ≠ 1000 * 2147484 := by
  refine ⟨blockSchedule_isSchedule 1000 2147484, ?_, by decide, by decide⟩
  show runIncrements _ { _name := "RPS", _value := Value.int CInt.zero } = _
  rw [runIncrements_int, (blockSchedule_isSchedule 1000 2147484).length_eq]
  have e : CInt.ofInt (CInt.zero.val + ((1000 * 2147484 : Nat) : Int)) = CInt.ofInt (-2147483296) := by
    decide
  rw [e]

/-- C18, amended. When `N` threads each call `add(1)` 1000 times on an `int`
metric that starts at zero, then in whatever order the atomic increments take
effect the final value is `1000 * N` reduced into the 32-bit two's-complement
range; it is exactly `1000 * N`, no increment lost, whenever `1000 * N` does
not exceed 2147483647. -/
theorem increments_sum (N : Nat) (schedule : List Nat) (nm : String)
    (h : IsSchedule N 1000 schedule) :
    runIncrements schedule (ConcreteMetric.new Kind.Integer nm)
        = { _name := nm, _value := Value.int (CInt.ofInt (1000 * N)) }
    ∧ (CInt.ofInt (1000 * N)).val = wrap32 (1000 * N)
    ∧ (1000 * N ≤ 2147483647 → (CInt.ofInt (1000 * N)).val = 1000 * N) := by
  refine ⟨?_, rfl, ?_⟩
  · show runIncrements _ { _name := nm, _value := Value.int CInt.zero } = _
    rw [runIncrements_int, h.length_eq]
    have e : CInt.zero.val + ((1000 * N : Nat) : Int) = 1000 * (N : Int) := by
      show (0 : Int) + _ = _
      push_cast
      omega
    rw [e]
  · intro hb
    show wrap32 (1000 * (N : Int)) = 1000 * (N : Int)
    unfold wrap32
    omega

/-- Instance of C18: two threads, and a short schedule evaluated directly. -/
theorem increments_sum_witness :
    runIncrements [0, 1, 1, 0] (ConcreteMetric.new Kind.Integer "RPS")
        = { _name := "RPS", _value := Value.int (CInt.ofInt 4) }
    ∧ IsSchedule 2 1000 (blockSchedule 1000 2)
    ∧ runIncrements (blockSchedule 1000 2) (ConcreteMetric.new Kind.Integer "RPS")
        = { _name := "RPS", _value := Value.int (CInt.ofInt (1000 * (2 : Nat))) } :=
  ⟨by decide, blockSchedule_isSchedule 1000 2,
    (increments_sum 2 (blockSchedule 1000 2) "RPS" (blockSchedule_isSchedule 1000 2)).1⟩

/-! ## Log cycles statement by statement -/

theorem map_modify_of_ne (k : String) (f : Metric → Metric) (l : List (String × Metric))
    (h : ∀ p ∈ l, p.1 ≠ k) :
    l.map (fun p => if p.1 = k then (p.1, f p.2) else p) = l := by
  induction l with
  | nil => rfl
  | cons a t ih =>
    rw [List.map_cons, ih (fun p hp => h p (List.mem_cons_of_mem _ hp)),
      if_neg (h a (List.mem_cons_self _ _))]

theorem Manager.ext_fields {a b : Manager} (h1 : a._metrics.nodes = b._metrics.nodes)
    (h2 : a._file = b._file) : a = b := by
  obtain ⟨ma, fa⟩ := a
  obtain ⟨mb, fb⟩ := b
  simp only at h1 h2
  rw [MetricsMap.ext_nodes h1, h2]

theorem runTwo_true (s : List Bool) (p q : List Statement) (mgr : Manager) :
    runTwo (true :: s) p q mgr
      = match execNext p mgr with
        | some (p', mgr') => runTwo s p' q mgr'
        | none => none := rfl

theorem runTwo_false (s : List Bool) (p q : List Statement) (mgr : Manager) :
    runTwo (false :: s) p q mgr
      = match execNext q mgr with
        | some (q', mgr') => runTwo s p q' mgr'
        | none => none := rfl

theorem runTwo_nodes (t : List (String × Metric)) :
    ∀ (mgr : Manager) (done : List (String × Metric)) (s : List Bool)
      (rest q : List Statement), mgr._metrics.nodes = done ++ t →
      ∃ mgr' : Manager,
        mgr'._metrics.nodes = done ++ t.map (fun p => (p.1, ConcreteMetric.reset p.2))
        ∧ mgr'._file = mgr._file ++ String.join (t.map entryText)
        ∧ runTwo (List.replicate (2 * t.length) true ++ s)
            ((t.map Prod.fst).flatMap (fun n => [Statement.entry n, Statement.reset n]) ++ rest)
            q mgr
          = runTwo s rest q mgr' := by
  induction t with
  | nil =>
    intro mgr done s rest q h
    refine ⟨mgr, by simpa using h, ?_, rfl⟩
    apply String.ext
    simp [String.data_append, String.data_join]
  | cons a t ih =>
    intro mgr done s rest q h
    obtain ⟨k, m⟩ := a
    have hu := mgr._metrics.unique
    rw [h] at hu
    have hfind : mgr._metrics.find k = some m := by
      apply findNode_of_mem mgr._metrics.unique
      rw [h]
      exact List.mem_append_right _ (List.mem_cons_self _ _)
    have hu2 : ((done.map Prod.fst) ++ (k :: t.map Prod.fst)).Nodup := by
      simpa using hu
    have hdone : ∀ p ∈ done, p.1 ≠ k := by
      intro p hp e
      have hd := List.disjoint_of_nodup_append hu2
      exact hd (List.mem_map_of_mem Prod.fst hp) (e ▸ List.mem_cons_self _ _)
    have htail : ∀ p ∈ t, p.1 ≠ k := by
      intro p hp e
      have h3 := (List.nodup_cons.mp (List.Nodup.of_append_right hu2)).1
      exact h3 (e ▸ List.mem_map_of_mem Prod.fst hp)
    have hnodes : (mgr._metrics.modify k ConcreteMetric.reset).nodes
        = (done ++ [(k, ConcreteMetric.reset m)]) ++ t := by
      show (mgr._metrics.nodes.map _) = _
      rw [h, List.map_append, List.map_cons, map_modify_of_ne k _ done hdone,
        map_modify_of_ne k _ t htail]
      simp
    obtain ⟨mgr', hn', hf', hrun'⟩ := ih
      ({ _metrics := mgr._metrics.modify k ConcreteMetric.reset,
         _file := mgr._file ++ entryText (k, m) } : Manager)
      (done ++ [(k, ConcreteMetric.reset m)]) s rest q hnodes
    refine ⟨mgr', ?_, ?_, ?_⟩
    · rw [hn']
      simp
    · rw [hf', List.map_cons, String.join_cons_eq, String.append_assoc]
    · have e1 : List.replicate (2 * ((k, m) :: t).length) true ++ s
          = true :: true :: (List.replicate (2 * t.length) true ++ s) := by
        have : 2 * ((k, m) :: t).length = 2 * t.length + 2 := by
          simp only [List.length_cons]
          omega
        rw [this]
        rfl
      rw [e1]
      simp only [List.map_cons, List.flatMap_cons, List.cons_append, List.nil_append]
      rw [runTwo_true]
      simp only [execNext, hfind]
      rw [runTwo_true]
      have hfind2 : ({ mgr with _file := mgr._file ++ entryText (k, m) } : Manager)._metrics.find k
          = some m := hfind
      simp only [execNext, hfind2]
      exact hrun'

theorem logProgram_length (names : List String) (ts : String) :
    (logProgram names ts).length = 1 + (2 * names.length + 1) := by
  unfold logProgram
  have h : ∀ l : List String,
      (l.flatMap (fun n => [Statement.entry n, Statement.reset n])).length = 2 * l.length := by
    intro l
    induction l with
    | nil => rfl
    | cons a t ih =>
      simp only [List.flatMap_cons, List.length_append, List.length_cons, List.length_nil, ih]
      omega
  simp only [List.length_cons, List.length_append, List.length_nil, h]
  omega

/-- A `logMetrics()` call whose statements run without a statement of the
other thread in between has the effect of `Manager.logMetrics`. -/
theorem runTwo_logProgram (mgr : Manager) (localtime : Int → Tm) (now : Int)
    (s : List Bool) (q : List Statement) :
    runTwo (List.replicate (logProgram mgr._metrics.names (timestamp localtime now)).length true ++ s)
        (logProgram mgr._metrics.names (timestamp localtime now)) q mgr
      = runTwo s [] q (mgr.logMetrics localtime now) := by
  rw [logProgram_length]
  have e : List.replicate (1 + (2 * mgr._metrics.names.length + 1)) true ++ s
      = true :: (List.replicate (2 * mgr._metrics.nodes.length) true ++ (true :: s)) := by
    have hl : mgr._metrics.names.length = mgr._metrics.nodes.length := by
      unfold MetricsMap.names
      rw [List.length_map]
    rw [hl, List.replicate_add, List.replicate_add]
    simp
  rw [e]
  unfold logProgram
  rw [runTwo_true]
  simp only [execNext]
  obtain ⟨mgr', hn, hf, hrun⟩ := runTwo_nodes mgr._metrics.nodes
    ({ mgr with _file := mgr._file ++ timestamp localtime now } : Manager) [] (true :: s)
    [Statement.endl] q rfl
  unfold MetricsMap.names
  rw [hrun, runTwo_true]
  simp only [execNext]
  congr 1
  apply Manager.ext_fields
  · rw [Manager.nodes_logMetrics]
    simpa using hn
  · rw [Manager.file_logMetrics]
    show mgr'._file ++ "\n" = _
    rw [hf]
    show (mgr._file ++ timestamp localtime now) ++ _ ++ "\n" = _
    simp only [String.append_assoc]

theorem runTwo_swap (s : List Bool) : ∀ (p q : List Statement) (mgr : Manager),
    runTwo (s.map not) q p mgr = runTwo s p q mgr := by
  induction s with
  | nil =>
    intro p q mgr
    rfl
  | cons b s ih =>
    intro p q mgr
    cases b with
    | true =>
      show runTwo (false :: s.map not) q p mgr = runTwo (true :: s) p q mgr
      rw [runTwo_false, runTwo_true]
      cases execNext p mgr with
      | none => rfl
      | some r => exact ih _ _ _
    | false =>
      show runTwo (true :: s.map not) q p mgr = runTwo (false :: s) p q mgr
      rw [runTwo_false, runTwo_true]
      cases execNext q mgr with
      | none => rfl
      | some r => exact ih _ _ _

theorem runTwo_logProgram_second (mgr : Manager) (localtime : Int → Tm) (now : Int) :
    runTwo (List.replicate (logProgram mgr._metrics.names (timestamp localtime now)).length false)
        [] (logProgram mgr._metrics.names (timestamp localtime now)) mgr
      = some (mgr.logMetrics localtime now) := by
  have h := runTwo_logProgram mgr localtime now [] []
  rw [List.append_nil] at h
  rw [← runTwo_swap] at h
  simp only [List.map_replicate, Bool.not_true] at h
  rw [h]
  rfl

/-- C17, as the claim states it, fails in both halves: nothing in `Manager`
orders the statements of two calls. When two threads execute the statements of
two `logMetrics()` calls in turn on the registry of `main` with
`HTTP requests RPS` at 42, the file holds both timestamps, then every entry
twice, then both newlines, and the line of the first call is not a contiguous
block of it. When a `deleteMetric("HTTP requests RPS")` of a second thread
runs during the iteration, between the loop's write of the entry of that
metric and its `reset()`, the loop resets a destroyed metric and the execution
has no defined result, while the same two calls one after the other, in either
order, have one. -/
theorem interleaved_log_cycles :
    (runTwo [true, false, true, false, true, false, true, false, true, false, true, false]
        (logProgram demoManager42._metrics.names (timestamp firstDayTm 1000000))
        (logProgram demoManager42._metrics.names (timestamp firstDayTm 2000000))
        demoManager42).map Manager._file
      = some "1970-01-01 00:00:00.001 1970-01-01 00:00:00.002 \"HTTP requests RPS\" 42 \"HTTP requests RPS\" 42 \"CPU\" 0.00 \"CPU\" 0.00 \n\n"
    ∧ (demoManager42.logMetrics firstDayTm 1000000)._file
      = "1970-01-01 00:00:00.001 \"HTTP requests RPS\" 42 \"CPU\" 0.00 \n"
    ∧ ¬ ("1970-01-01 00:00:00.001 \"HTTP requests RPS\" 42 \"CPU\" 0.00 \n".data
        <:+: "1970-01-01 00:00:00.001 1970-01-01 00:00:00.002 \"HTTP requests RPS\" 42 \"HTTP requests RPS\" 42 \"CPU\" 0.00 \"CPU\" 0.00 \n\n".data)
    ∧ logProgram demoManager42._metrics.names (timestamp firstDayTm 1000000)
      = [Statement.stamp "1970-01-01 00:00:00.001 ",
          Statement.entry "HTTP requests RPS", Statement.reset "HTTP requests RPS",
          Statement.entry "CPU", Statement.reset "CPU", Statement.endl]
    ∧ runTwo [true, true, false, true]
        (logProgram demoManager42._metrics.names (timestamp firstDayTm 1000000))
        [Statement.call (Call.delete "HTTP requests RPS")] demoManager42
      = none
    ∧ runTwo [true, true, true, true, true, true, false]
        (logProgram demoManager42._metrics.names (timestamp firstDayTm 1000000))
        [Statement.call (Call.delete "HTTP requests RPS")] demoManager42
      = some ((demoManager42.logMetrics firstDayTm 1000000).deleteMetric "HTTP requests RPS")
    ∧ runTwo [false, true, true, true, true]
        (logProgram (demoManager42.deleteMetric "HTTP requests RPS")._metrics.names
          (timestamp firstDayTm 1000000))
        [Statement.call (Call.delete "HTTP requests RPS")] demoManager42
      = some ((demoManager42.deleteMetric "HTTP requests RPS").logMetrics firstDayTm 1000000) := by
  refine ⟨by decide, by decide, by decide, by decide, by decide, by decide, by decide⟩

/-- C17, amended. The registry takes no lock, and calls that do not overlap
behave as calls in a row. When all statements of one `logMetrics()` call run
before those of a second one, the result is that of the two calls one after
the other, and the file gets the whole line of the first call (timestamp, all
entries, newline) followed by the whole line of the second. Likewise a
`createMetric` or `deleteMetric` call that runs after the last statement of a
log cycle, or before its first, has the effect of the call made after, or
before, the whole `logMetrics()` call. -/
theorem serial_log_cycles (mgr : Manager) (localtime : Int → Tm) (now1 now2 : Int) (c : Call) :
    runTwo
        (List.replicate (logProgram mgr._metrics.names (timestamp localtime now1)).length true
          ++ List.replicate (logProgram mgr._metrics.names (timestamp localtime now2)).length false)
        (logProgram mgr._metrics.names (timestamp localtime now1))
        (logProgram mgr._metrics.names (timestamp localtime now2)) mgr
      = some ((mgr.logMetrics localtime now1).logMetrics localtime now2)
    ∧ ((mgr.logMetrics localtime now1).logMetrics localtime now2)._file
      = mgr._file
        ++ (timestamp localtime now1
            ++ String.join (mgr._metrics.nodes.map entryText) ++ "\n")
        ++ (timestamp localtime now2
            ++ String.join ((mgr.logMetrics localtime now1)._metrics.nodes.map entryText) ++ "\n")
    ∧ runTwo
        (List.replicate (logProgram mgr._metrics.names (timestamp localtime now1)).length true
          ++ [false])
        (logProgram mgr._metrics.names (timestamp localtime now1)) [Statement.call c] mgr
      = some ((mgr.logMetrics localtime now1).call c)
    ∧ runTwo
        (false :: List.replicate
          (logProgram (mgr.call c)._metrics.names (timestamp localtime now1)).length true)
        (logProgram (mgr.call c)._metrics.names (timestamp localtime now1)) [Statement.call c] mgr
      = some ((mgr.call c).logMetrics localtime now1) := by
  refine ⟨?_, ?_, ?_, ?_⟩
  · rw [runTwo_logProgram, ← Manager.names_logMetrics mgr localtime now1,
      runTwo_logProgram_second]
  · rw [Manager.file_logMetrics, Manager.file_logMetrics]
  · rw [runTwo_logProgram]
    rfl
  · rw [runTwo_false]
    simp only [execNext]
    have h := runTwo_logProgram (mgr.call c) localtime now1 [] []
    rw [List.append_nil] at h
    rw [h]
    rfl

end MetricsVK
